import Mathlib

/-!
Verification of the permutohedron permutation-generation library.

The Rust sources define:
* `Heap` — Heap's algorithm, iterative version (`Heap::new`, `Heap::reset`,
  `Heap::next_permutation`), bounded by `MAXHEAP = 16`;
* `heap_recursive` / `heap_unrolled_` — Heap's algorithm, recursive version,
  with a unit-returning `FnMut` callback;
* `Control` / `ControlFlow` in `control.rs`;
* `factorial`.

Mutable slices are modelled as `List α`; `slice::swap(i, j)` becomes `swapAt`;
the `u32` sentinel `!0` becomes the numeral `U32MAX`.  The `FnMut` callback of
the recursive engine is modelled by returning the list of arrangements the
callback is invoked with, in call order, next to the final arrangement.
-/

namespace Permutohedron

open scoped List

/-- `slice::swap(i, j)`: swap the elements at indices `i` and `j`.  Out of
bounds indices leave the list unchanged (in the source they would panic; every
use below is in bounds). -/
def swapAt (xs : List α) (i j : Nat) : List α :=
  match xs[i]?, xs[j]? with
  | some a, some b => (xs.set i b).set j a
  | _, _ => xs

/-- `MAXHEAP`: maximum number of elements supported by the iterative engine. -/
def MAXHEAP : Nat := 16

/-- The `u32` value `!0`, used by the source as the "not yet started" sentinel. -/
def U32MAX : Nat := 4294967295

/-- The state of the iterative engine (`struct Heap` without the borrow): the
wrapped data, the position marker `n` and the counter array `c` (length
`MAXHEAP - 1`). -/
structure Heap (α : Type) where
  data : List α
  n : Nat
  c : List Nat
  deriving DecidableEq, Repr

/-- The state `Heap::new` builds once its assertion has passed. -/
def mkHeap (xs : List α) : Heap α :=
  ⟨xs, U32MAX, List.replicate (MAXHEAP - 1) 0⟩

/-- `Heap::new`, with `assert!(data.as_mut().len() <= MAXHEAP)` modelled as
returning `none` on violation. -/
def Heap.new (xs : List α) : Option (Heap α) :=
  if xs.length ≤ MAXHEAP then some (mkHeap xs) else none

/-- `Heap::reset`: restore the sentinel and zero every counter; the data is
not touched. -/
def Heap.reset (h : Heap α) : Heap α :=
  { h with n := U32MAX, c := List.replicate (MAXHEAP - 1) 0 }

/-- The `while` loop of `Heap::next_permutation`.  The first argument is
structural fuel: the loop runs at most `data.length` iterations because the
position strictly increases, so `data.length + 1` fuel is always enough.
Returns the emitted (already swapped) data, if any, with the new counters and
the new position. -/
def npLoop (d : List α) : Nat → List Nat → Nat → Option (List α) × List Nat × Nat
  | 0, c, n => (none, c, n)
  | fuel+1, c, n =>
    if 1 + n < d.length then
      if c.getD n 0 ≤ n then
        (some (swapAt d (if n % 2 = 0 then c.getD n 0 else 0) (n + 1)),
          c.set n (c.getD n 0 + 1), 0)
      else
        npLoop d fuel (c.set n 0) (n + 1)
    else
      (none, c, n)

/-- `Heap::next_permutation`: the emitted permutation (if any) together with
the updated engine state. -/
def Heap.next_permutation (h : Heap α) : Option (List α) × Heap α :=
  if h.n = U32MAX then
    (some h.data, { h with n := 0 })
  else
    match npLoop h.data (h.data.length + 1) h.c h.n with
    | (some d, c, n) => (some d, ⟨d, n, c⟩)
    | (none, c, n) => (none, { h with c := c, n := n })

/-- Drive `next_permutation` repeatedly, collecting every emitted permutation;
`fuel` bounds the number of calls. -/
def runHeapF : Nat → Heap α → List (List α)
  | 0, _ => []
  | fuel+1, h =>
    match h.next_permutation with
    | (none, _) => []
    | (some d, h') => d :: runHeapF fuel h'

/-- The state of the engine after `k` calls to `next_permutation`. -/
def stepN (h : Heap α) : Nat → Heap α
  | 0 => h
  | k+1 => (stepN h k).next_permutation.2

/-- `factorial` from the source: `(1..n + 1).fold(1, |a, b| a * b)`. -/
def factorial (n : Nat) : Nat := (List.range' 1 n).foldl (· * ·) 1

/-- The whole enumeration of the iterative engine: `n! + 1` calls, so that the
final exhausting call is included. -/
def iterRun (xs : List α) : List (List α) :=
  runHeapF (factorial xs.length + 1) (mkHeap xs)

/-- `heap_unrolled_` from the source, with explicit structural fuel (the
source recursion decreases `n`, so any `fuel ≥ n` behaves identically).
Returns the final arrangement together with the list of arrangements passed to
the callback, in call order. -/
def heap_unrolled_ : Nat → Nat → List α → List α × List (List α)
  | 0, _, xs => (xs, [])
  | fuel+1, n, xs =>
    if n = 3 then
      let a1 := swapAt xs 0 1
      let a2 := swapAt a1 0 2
      let a3 := swapAt a2 0 1
      let a4 := swapAt a3 0 2
      let a5 := swapAt a4 0 1
      (a5, [xs, a1, a2, a3, a4, a5])
    else
      let p := (List.range (n - 1)).foldl
        (fun st i =>
          let q := heap_unrolled_ fuel (n - 1) st.1
          (swapAt q.1 (if n % 2 = 0 then i else 0) (n - 1), st.2 ++ q.2))
        (xs, [])
      let q := heap_unrolled_ fuel (n - 1) p.1
      (q.1, p.2 ++ q.2)

/-- `heap_recursive` from the source.  The unit-returning `FnMut` callback is
modelled by the returned list of arrangements it is invoked with. -/
def heap_recursive (xs : List α) : List α × List (List α) :=
  match xs.length with
  | 0 | 1 => (xs, [xs])
  | 2 => (swapAt xs 0 1, [xs, swapAt xs 0 1])
  | n => heap_unrolled_ n n xs

/-- `Control` from `control.rs`. -/
inductive Control (B : Type) where
  | Continue
  | Break (b : B)

/-- `Control::should_break`. -/
def Control.should_break : Control B → Bool
  | .Continue => false
  | .Break _ => true

/-- The `ControlFlow` trait from `control.rs` (`should_break` defaults to
`false`). -/
class ControlFlow (C : Type) where
  continuing : C
  should_break : C → Bool := fun _ => false

instance : ControlFlow Unit where
  continuing := ()

instance : ControlFlow (Control B) where
  continuing := .Continue
  should_break := Control.should_break

instance : ControlFlow (Except E Unit) where
  continuing := .ok ()
  should_break := fun r => match r with | .error _ => true | .ok _ => false

/-- Generic loop shape shared by the recursive-engine arms: run `G`, swap
position `jf i` with position `last`, repeat `r` times, then run `G` once
more.  Returns the final arrangement and the concatenated visit lists. -/
def hvLoop (G : List α → List α × List (List α)) (jf : Nat → Nat) (last : Nat) :
    Nat → Nat → List α → List α × List (List α)
  | 0, _, xs => G xs
  | r+1, i, xs =>
    let q := G xs
    let p := hvLoop G jf last r (i+1) (swapAt q.1 (jf i) last)
    (p.1, q.2 ++ p.2)

/-- Uniform presentation of Heap's recursion: `hv m xs` enumerates the
permutations of the first `m` positions of `xs`.  It agrees with
`heap_recursive` at `m = xs.length` and is the specification against which the
iterative engine is proved. -/
def hv : Nat → List α → List α × List (List α)
  | 0, xs => (xs, [xs])
  | 1, xs => (xs, [xs])
  | m+2, xs =>
    hvLoop (hv (m+1)) (fun i => if (m+2) % 2 = 0 then i else 0) (m+1) (m+1) 0 xs

/-- The loop of `hv (m+2)` with explicit remaining-iteration and loop-index
arguments; `hv (m+2) xs = hvL m (m+1) 0 xs`. -/
def hvL (m : Nat) (r i : Nat) (d : List α) : List α × List (List α) :=
  hvLoop (hv (m+1)) (fun x => if (m+2) % 2 = 0 then x else 0) (m+1) r i d

/-- Counters `0 .. k-1` set to `0` (the carry scan of the iterative engine). -/
def resetRange (c : List Nat) : Nat → List Nat
  | 0 => c
  | k+1 => (resetRange c k).set k 0

/-- Counters `i < k` set to their saturated value `i + 1`. -/
def satRange (c : List Nat) : Nat → List Nat
  | 0 => c
  | k+1 => (satRange c k).set k (k+1)

/-- Apply an index selection to a list: position `k < σ.length` receives
`xs[σ[k]]`, positions past `σ.length` keep their element.  When `σ` is a
permutation of `range σ.length` this permutes the prefix of `xs`. -/
def applyP (σ : List Nat) (xs : List α) : List α :=
  σ.filterMap (fun i => xs[i]?) ++ xs.drop σ.length

/-- The net index permutation effected on the first `m` positions by a full
enumeration `hv m` (given as literal tables for `m ≤ 8`; each is certified
against the recursive chain below). -/
def sigma : Nat → List Nat
  | 0 => []
  | 1 => [0]
  | 2 => [1, 0]
  | 3 => [2, 1, 0]
  | 4 => [1, 2, 3, 0]
  | 5 => [4, 1, 2, 3, 0]
  | 6 => [3, 4, 1, 2, 5, 0]
  | 7 => [6, 1, 2, 3, 4, 5, 0]
  | 8 => [5, 6, 1, 2, 3, 4, 7, 0]
  | _ => []

/-- Index-level image of the `hvLoop` chain: the final index list after `r`
iterations of (apply `σp`, then swap `jf i` with `last`) followed by one last
application of `σp`. -/
def sigChain (σp : List Nat) (last : Nat) : Nat → Nat → List Nat → List Nat
  | 0, _, C => applyP σp C
  | r+1, i, C =>
    sigChain σp last r (i+1)
      (swapAt (applyP σp C) (if (last+1) % 2 = 0 then i else 0) last)

/-- The indices appearing at position `last` at the start of each block of the
`hvLoop` chain (the "last element" of each block of Heap's recursion). -/
def bChain (σp : List Nat) (last : Nat) : Nat → Nat → List Nat → List Nat
  | 0, _, C => [C.getD last 0]
  | r+1, i, C =>
    C.getD last 0 ::
      bChain σp last r (i+1)
        (swapAt (applyP σp C) (if (last+1) % 2 = 0 then i else 0) last)

/-- States of the iterative engine reachable from a freshly constructed engine
by calls to `next_permutation`. -/
inductive Reach : Heap α → Prop
  | init (xs : List α) : Reach (mkHeap xs)
  | step {h : Heap α} : Reach h → Reach h.next_permutation.2

/-- Modelled from the spec: the file `src/lexical.rs` implementing the
`LexicalPermutation` trait is absent from the sources (only
`pub use lexical::LexicalPermutation;` remains), so the helper below follows
the spec's algorithm description word for word: in the non-increasing suffix,
find the smallest element greater than the pivot `x` — the suffix being
non-increasing, this is the rightmost element greater than `x`.  Returns that
element together with the suffix where it has been replaced by `x`. -/
def pickLastGreater (lt : α → α → Bool) (x : α) : List α → Option (α × List α)
  | [] => none
  | y :: t =>
    match pickLastGreater lt x t with
    | some (z, t') => some (z, y :: t')
    | none => if lt x y then some (y, x :: t) else none

/-- Modelled from the spec: the scan of `next_in_lexical_order`.  Walks the
reversed list, growing the (already checked, non-increasing) suffix; when the
element just before the suffix is smaller than the suffix head it is the
pivot: swap it with the smallest greater suffix element and reverse the
suffix.  If the whole sequence is non-increasing, report `false` and leave the
sequence unchanged. -/
def lexGo (lt : α → α → Bool) : List α → List α → Bool × List α
  | [], suffix => (false, suffix)
  | x :: rest, suffix =>
    match suffix with
    | [] => lexGo lt rest [x]
    | s :: _ =>
      if lt x s then
        match pickLastGreater lt x suffix with
        | some (y, suffix') => (true, rest.reverse ++ y :: suffix'.reverse)
        | none => (false, rest.reverse ++ x :: suffix)
      else lexGo lt rest (x :: suffix)

/-- Modelled from the spec: `next_in_lexical_order(sequence, less_than)`.
Rearranges the sequence in place to the lexicographically next-larger
arrangement under the strict ordering `lt` and reports `true`; if the current
arrangement is already the lexicographically maximal one, leaves the sequence
unchanged and reports `false` (the "leave unchanged" variant of the two the
spec permits). -/
def next_in_lexical_order (lt : α → α → Bool) (l : List α) : Bool × List α :=
  lexGo lt l.reverse []

/-- Modelled from the spec: lexicographic strict comparison of two sequences
under the strict element order `lt`.  The first position where the sequences
differ decides; two elements are considered equal when neither is less than
the other. -/
def lexLt (lt : α → α → Bool) : List α → List α → Bool
  | _, [] => false
  | [], _ :: _ => true
  | x :: xs, y :: ys => lt x y || (!lt x y && !lt y x && lexLt lt xs ys)

/-- Modelled from the spec: a sequence is non-increasing when no element is
less than its successor (the shape of the maximal suffix found by
`next_in_lexical_order`, and of a lexicographically maximal arrangement). -/
def nonIncr (lt : α → α → Bool) : List α → Bool
  | [] => true
  | [_] => true
  | a :: b :: t => !lt a b && nonIncr lt (b :: t)

/-- Modelled from the spec: a sequence is non-decreasing when no element is
less than its predecessor (the shape of a lexicographically minimal
arrangement). -/
def nonDecr (lt : α → α → Bool) : List α → Bool
  | [] => true
  | [_] => true
  | a :: b :: t => !lt b a && nonDecr lt (b :: t)

/-! ### Basic properties of `swapAt` -/

theorem swapAt_of_oob {xs : List α} {i j : Nat} (h : xs.length ≤ i ∨ xs.length ≤ j) :
    swapAt xs i j = xs := by
  unfold swapAt
  rcases h with h | h
  · have hi : xs[i]? = none := List.getElem?_eq_none h
    rw [hi]
  · have hj : xs[j]? = none := List.getElem?_eq_none h
    rw [hj]
    cases xs[i]? <;> rfl

theorem swapAt_eq {xs : List α} {i j : Nat} (hi : i < xs.length) (hj : j < xs.length) :
    swapAt xs i j = (xs.set i xs[j]).set j xs[i] := by
  unfold swapAt
  rw [List.getElem?_eq_getElem hi, List.getElem?_eq_getElem hj]

theorem swapAt_length (xs : List α) (i j : Nat) : (swapAt xs i j).length = xs.length := by
  unfold swapAt
  cases h1 : xs[i]? <;> cases h2 : xs[j]? <;> simp

theorem swapAt_getElem? {xs : List α} {i j : Nat} (hi : i < xs.length) (hj : j < xs.length)
    (k : Nat) :
    (swapAt xs i j)[k]? = if j = k then xs[i]? else if i = k then xs[j]? else xs[k]? := by
  rw [swapAt_eq hi hj, List.getElem?_set, List.getElem?_set]
  simp only [List.length_set]
  by_cases h1 : j = k
  · subst h1
    simp [hj, List.getElem?_eq_getElem hi]
  · by_cases h2 : i = k
    · subst h2
      simp [h1, hi, List.getElem?_eq_getElem hj]
    · simp [h1, h2]

theorem get_cons_set_perm :
    ∀ (t : List α) (s : Nat) (hs : s < t.length) (a : α),
      (t[s] :: t.set s a) ~ (a :: t) := by
  intro t
  induction t with
  | nil => intro s hs; simp at hs
  | cons b u ih =>
    intro s hs a
    cases s with
    | zero => simpa using List.Perm.swap a b u
    | succ s =>
      have hs' : s < u.length := by simpa using hs
      show (u[s] :: b :: u.set s a) ~ (a :: b :: u)
      calc (u[s] :: b :: u.set s a)
          ~ (b :: u[s] :: u.set s a) := List.Perm.swap _ _ _
        _ ~ (b :: (a :: u)) := List.Perm.cons b (ih s hs' a)
        _ ~ (a :: b :: u) := List.Perm.swap _ _ _

theorem swapAt_perm (xs : List α) (i j : Nat) : (swapAt xs i j) ~ xs := by
  by_cases hi : i < xs.length
  · by_cases hj : j < xs.length
    · rw [swapAt_eq hi hj]
      induction xs generalizing i j with
      | nil => simp at hi
      | cons x t ih =>
        cases i with
        | zero =>
          cases j with
          | zero => simp
          | succ s =>
            have hs : s < t.length := by simpa using hj
            simpa using get_cons_set_perm t s hs x
        | succ s =>
          cases j with
          | zero =>
            have hs : s < t.length := by simpa using hi
            simpa using get_cons_set_perm t s hs x
          | succ r =>
            have hs : s < t.length := by simpa using hi
            have hr : r < t.length := by simpa using hj
            simpa using List.Perm.cons x (ih s r hs hr)
    · rw [swapAt_of_oob (Or.inr (Nat.le_of_not_lt hj))]
  · rw [swapAt_of_oob (Or.inl (Nat.le_of_not_lt hi))]

theorem swapAt_drop {xs : List α} {i j k : Nat} (hik : i < k) (hjk : j < k) :
    (swapAt xs i j).drop k = xs.drop k := by
  by_cases hi : i < xs.length
  · by_cases hj : j < xs.length
    · rw [swapAt_eq hi hj, List.drop_set, List.drop_set]
      simp [hik, hjk]
    · rw [swapAt_of_oob (Or.inr (Nat.le_of_not_lt hj))]
  · rw [swapAt_of_oob (Or.inl (Nat.le_of_not_lt hi))]

theorem swapAt_mem {xs : List α} {i j : Nat} {a : α} : a ∈ swapAt xs i j ↔ a ∈ xs :=
  (swapAt_perm xs i j).mem_iff

/-! ### Counter-list helpers -/

theorem eq_of_getD_eq {c₁ c₂ : List Nat} (hl : c₁.length = c₂.length)
    (h : ∀ i, c₁.getD i 0 = c₂.getD i 0) : c₁ = c₂ := by
  apply List.ext_getElem hl
  intro i h1 h2
  have hh := h i
  rwa [List.getD_eq_getElem?_getD, List.getD_eq_getElem?_getD,
    List.getElem?_eq_getElem h1, List.getElem?_eq_getElem h2] at hh

theorem length_resetRange (c : List Nat) (k : Nat) :
    (resetRange c k).length = c.length := by
  induction k with
  | zero => rfl
  | succ k ih => simp [resetRange, ih]

theorem getD_resetRange (c : List Nat) (k i : Nat) :
    (resetRange c k).getD i 0 = if i < k then 0 else c.getD i 0 := by
  induction k with
  | zero => simp [resetRange]
  | succ k ih =>
    show ((resetRange c k).set k 0).getD i 0 = _
    by_cases hik : i = k
    · subst hik
      rw [List.getD_eq_getElem?_getD, List.getElem?_set]
      simp only [if_pos rfl]
      by_cases hlen : i < (resetRange c i).length
      · simp [hlen]
      · simp [hlen]
    · rw [List.getD_eq_getElem?_getD, List.getElem?_set_ne (Ne.symm hik),
        ← List.getD_eq_getElem?_getD, ih]
      by_cases h1 : i < k
      · simp [h1, Nat.lt_succ_of_lt h1]
      · have h2 : ¬ i < k + 1 := by omega
        simp [h1, h2]

theorem length_satRange (c : List Nat) (k : Nat) :
    (satRange c k).length = c.length := by
  induction k with
  | zero => rfl
  | succ k ih => simp [satRange, ih]

theorem getD_satRange (c : List Nat) {k : Nat} (i : Nat) (hk : k ≤ c.length) :
    (satRange c k).getD i 0 = if i < k then i + 1 else c.getD i 0 := by
  induction k with
  | zero => simp [satRange]
  | succ k ih =>
    have hk' : k ≤ c.length := Nat.le_of_succ_le hk
    show ((satRange c k).set k (k+1)).getD i 0 = _
    by_cases hik : i = k
    · subst hik
      have hlen : i < (satRange c i).length := by
        rw [length_satRange]; omega
      rw [List.getD_eq_getElem?_getD, List.getElem?_set_self hlen]
      simp
    · rw [List.getD_eq_getElem?_getD, List.getElem?_set_ne (Ne.symm hik),
        ← List.getD_eq_getElem?_getD, ih hk']
      by_cases h1 : i < k
      · simp [h1, Nat.lt_succ_of_lt h1]
      · have h2 : ¬ i < k + 1 := by omega
        simp [h1, h2]

theorem getD_replicate_zero (i : Nat) : (List.replicate (MAXHEAP - 1) 0).getD i 0 = 0 := by
  rw [List.getD_eq_getElem?_getD]
  by_cases h : i < MAXHEAP - 1
  · rw [List.getElem?_eq_getElem (by simpa using h)]
    simp [List.getElem_replicate]
  · rw [List.getElem?_eq_none (by simpa using Nat.le_of_not_lt h)]
    rfl

/-! ### Structure of the uniform recursion `hv` -/

theorem hvLoop_cons {G : List α → List α × List (List α)} {jf : Nat → Nat} {last : Nat}
    (hG : ∀ x, (G x).2 = x :: (G x).2.tail) :
    ∀ (r i : Nat) (xs : List α),
      (hvLoop G jf last r i xs).2 = xs :: (hvLoop G jf last r i xs).2.tail := by
  intro r
  induction r with
  | zero => intro i xs; exact hG xs
  | succ r _ =>
    intro i xs
    simp only [hvLoop]
    rw [hG xs]
    simp

theorem hv_cons : ∀ (m : Nat) (xs : List α), (hv m xs).2 = xs :: (hv m xs).2.tail := by
  intro m
  induction m using Nat.strong_induction_on with
  | _ m ih =>
    match m with
    | 0 => intro xs; rfl
    | 1 => intro xs; rfl
    | m+2 =>
      intro xs
      simp only [hv]
      exact hvLoop_cons (ih (m+1) (by omega)) _ _ _

theorem hvLoop_length {G : List α → List α × List (List α)} {jf : Nat → Nat} {last c : Nat}
    (hG : ∀ x, (G x).2.length = c) :
    ∀ (r i : Nat) (xs : List α), (hvLoop G jf last r i xs).2.length = (r + 1) * c := by
  intro r
  induction r with
  | zero => intro i xs; simpa using hG xs
  | succ r ih =>
    intro i xs
    simp only [hvLoop, List.length_append]
    rw [hG, ih]
    ring

theorem hv_length : ∀ (m : Nat) (xs : List α), (hv m xs).2.length = Nat.factorial m := by
  intro m
  induction m using Nat.strong_induction_on with
  | _ m ih =>
    match m with
    | 0 => intro xs; rfl
    | 1 => intro xs; rfl
    | m+2 =>
      intro xs
      simp only [hv]
      rw [hvLoop_length (fun x => ih (m+1) (by omega) x)]
      simp only [Nat.factorial_succ]

theorem hvLoop_perm {G : List α → List α × List (List α)} {jf : Nat → Nat} {last : Nat}
    (hG : ∀ x, ((G x).1 ~ x) ∧ ∀ p ∈ (G x).2, p ~ x) :
    ∀ (r i : Nat) (xs : List α),
      ((hvLoop G jf last r i xs).1 ~ xs) ∧ ∀ p ∈ (hvLoop G jf last r i xs).2, p ~ xs := by
  intro r
  induction r with
  | zero => intro i xs; exact hG xs
  | succ r ih =>
    intro i xs
    simp only [hvLoop]
    have hq := hG xs
    have hx2 : (swapAt (G xs).1 (jf i) last) ~ xs :=
      (swapAt_perm _ _ _).trans hq.1
    have hp := ih (i+1) (swapAt (G xs).1 (jf i) last)
    constructor
    · exact hp.1.trans hx2
    · intro p hp2
      rcases List.mem_append.1 hp2 with h | h
      · exact hq.2 p h
      · exact ((hp.2 p h).trans hx2)

theorem hv_perm : ∀ (m : Nat) (xs : List α),
    ((hv m xs).1 ~ xs) ∧ ∀ p ∈ (hv m xs).2, p ~ xs := by
  intro m
  induction m using Nat.strong_induction_on with
  | _ m ih =>
    match m with
    | 0 => intro xs; exact ⟨List.Perm.refl xs, by simp [hv]⟩
    | 1 => intro xs; exact ⟨List.Perm.refl xs, by simp [hv]⟩
    | m+2 =>
      intro xs
      simp only [hv]
      exact hvLoop_perm (fun x => ih (m+1) (by omega) x) _ _ _

theorem hvLoop_drop {G : List α → List α × List (List α)} {jf : Nat → Nat} {last d0 : Nat}
    (hG : ∀ x, (G x).1.drop d0 = x.drop d0 ∧ ∀ p ∈ (G x).2, p.drop d0 = x.drop d0)
    (hlast : last < d0) :
    ∀ (r i : Nat), (∀ t, i ≤ t → t < i + r → jf t < d0) →
      ∀ (xs : List α),
        (hvLoop G jf last r i xs).1.drop d0 = xs.drop d0 ∧
          ∀ p ∈ (hvLoop G jf last r i xs).2, p.drop d0 = xs.drop d0 := by
  intro r
  induction r with
  | zero => intro i _ xs; exact hG xs
  | succ r ih =>
    intro i hjf xs
    simp only [hvLoop]
    have hq := hG xs
    have hswap : (swapAt (G xs).1 (jf i) last).drop d0 = xs.drop d0 := by
      rw [swapAt_drop (hjf i (Nat.le_refl i) (by omega)) hlast, hq.1]
    have hp := ih (i+1) (fun t ht1 ht2 => hjf t (by omega) (by omega))
      (swapAt (G xs).1 (jf i) last)
    constructor
    · rw [hp.1, hswap]
    · intro p hp2
      rcases List.mem_append.1 hp2 with h | h
      · exact hq.2 p h
      · rw [hp.2 p h, hswap]

theorem hv_drop : ∀ (m : Nat) (xs : List α),
    (hv m xs).1.drop m = xs.drop m ∧ ∀ p ∈ (hv m xs).2, p.drop m = xs.drop m := by
  intro m
  induction m using Nat.strong_induction_on with
  | _ m ih =>
    match m with
    | 0 => intro xs; exact ⟨rfl, by simp [hv]⟩
    | 1 => intro xs; exact ⟨rfl, by simp [hv]⟩
    | m+2 =>
      intro xs
      have hG : ∀ x : List α, (hv (m+1) x).1.drop (m+2) = x.drop (m+2) ∧
          ∀ p ∈ (hv (m+1) x).2, p.drop (m+2) = x.drop (m+2) := by
        intro x
        have h := ih (m+1) (by omega) x
        constructor
        · have := congrArg (List.drop 1) h.1
          simpa [List.drop_drop] using this
        · intro p hp
          have := congrArg (List.drop 1) (h.2 p hp)
          simpa [List.drop_drop] using this
      simp only [hv]
      refine hvLoop_drop hG (by omega) (m+1) 0 ?_ xs
      intro t _ ht2
      split
      · omega
      · omega

/-! ### The recursive engine agrees with the uniform recursion -/

theorem hv_two (xs : List α) : hv 2 xs = (swapAt xs 0 1, [xs, swapAt xs 0 1]) := by
  simp [hv, hvLoop]

theorem hv_three (xs : List α) :
    hv 3 xs =
      (swapAt (swapAt (swapAt (swapAt (swapAt xs 0 1) 0 2) 0 1) 0 2) 0 1,
        [xs, swapAt xs 0 1,
          swapAt (swapAt xs 0 1) 0 2,
          swapAt (swapAt (swapAt xs 0 1) 0 2) 0 1,
          swapAt (swapAt (swapAt (swapAt xs 0 1) 0 2) 0 1) 0 2,
          swapAt (swapAt (swapAt (swapAt (swapAt xs 0 1) 0 2) 0 1) 0 2) 0 1]) := by
  show hv (1+2) xs = _
  simp only [hv, hvLoop, hv_two]
  norm_num

theorem foldl_range'_hvLoop (G : List α → List α × List (List α)) (jf : Nat → Nat) (last : Nat) :
    ∀ (r i : Nat) (xs : List α) (vacc : List (List α)),
      ((G ((List.range' i r).foldl
            (fun st z => (swapAt (G st.1).1 (jf z) last, st.2 ++ (G st.1).2)) (xs, vacc)).1).1,
        ((List.range' i r).foldl
            (fun st z => (swapAt (G st.1).1 (jf z) last, st.2 ++ (G st.1).2)) (xs, vacc)).2
          ++ (G ((List.range' i r).foldl
            (fun st z => (swapAt (G st.1).1 (jf z) last, st.2 ++ (G st.1).2)) (xs, vacc)).1).2)
      = ((hvLoop G jf last r i xs).1, vacc ++ (hvLoop G jf last r i xs).2) := by
  intro r
  induction r with
  | zero =>
    intro i xs vacc
    simp [hvLoop]
  | succ r ih =>
    intro i xs vacc
    rw [List.range'_succ]
    simp only [List.foldl_cons]
    simpa [hvLoop, List.append_assoc]
      using ih (i+1) (swapAt (G xs).1 (jf i) last) (vacc ++ (G xs).2)

theorem heap_unrolled_eq_hv :
    ∀ (n : Nat), 3 ≤ n → ∀ (fuel : Nat), n ≤ fuel → ∀ (xs : List α),
      heap_unrolled_ fuel n xs = hv n xs := by
  intro n
  induction n using Nat.strong_induction_on with
  | _ n ih =>
    intro hn fuel hfuel xs
    obtain ⟨f, rfl⟩ : ∃ f, fuel = f + 1 := ⟨fuel - 1, by omega⟩
    match n, hn with
    | 3, _ =>
      rw [hv_three]
      simp [heap_unrolled_]
    | (k+4), _ =>
      have h3 : 3 ≤ k + 3 := by omega
      have hf : k + 3 ≤ f := by omega
      have hG : (heap_unrolled_ f (k+4-1) : List α → List α × List (List α)) = hv (k+3) := by
        funext x
        show heap_unrolled_ f (k+3) x = hv (k+3) x
        exact ih (k+3) (by omega) h3 f hf x
      simp only [heap_unrolled_, if_neg (by omega : ¬ k + 4 = 3)]
      rw [hG]
      rw [List.range_eq_range']
      have hrw : (hv (k+4) xs : List α × List (List α)) =
          hvLoop (hv (k+3)) (fun i => if (k+4) % 2 = 0 then i else 0) (k+3) (k+3) 0 xs :=
        hv.eq_3 xs (k+2)
      rw [hrw]
      simp only [show (k+4) - 1 = k+3 from rfl]
      simpa using foldl_range'_hvLoop (hv (k+3))
        (fun z => if (k+4) % 2 = 0 then z else 0) (k+3) (k+3) 0 xs []

theorem heap_recursive_eq_hv (xs : List α) : heap_recursive xs = hv xs.length xs := by
  unfold heap_recursive
  rcases hl : xs.length with _ | _ | _ | n
  · rfl
  · rfl
  · rw [hv_two]
  · exact heap_unrolled_eq_hv (n+3) (by omega) (n+3) (Nat.le_refl _) xs

/-! ### Index selections -/

theorem length_filterMap_getElem? {σ : List Nat} {xs : List α}
    (hmem : ∀ i ∈ σ, i < xs.length) :
    (σ.filterMap (fun i => xs[i]?)).length = σ.length := by
  induction σ with
  | nil => rfl
  | cons a t ih =>
    have ha : a < xs.length := hmem a (List.mem_cons_self a t)
    rw [List.filterMap_cons, List.getElem?_eq_getElem ha]
    simp only [List.length_cons]
    rw [ih (fun i hi => hmem i (List.mem_cons_of_mem a hi))]

theorem applyP_length {σ : List Nat} {xs : List α}
    (hmem : ∀ i ∈ σ, i < xs.length) (hlen : σ.length ≤ xs.length) :
    (applyP σ xs).length = xs.length := by
  unfold applyP
  rw [List.length_append, length_filterMap_getElem? hmem, List.length_drop]
  omega

theorem filterMap_getElem?_getElem? {σ : List Nat} {xs : List α}
    (hmem : ∀ i ∈ σ, i < xs.length) :
    ∀ {k : Nat}, k < σ.length →
      (σ.filterMap (fun i => xs[i]?))[k]? = xs[σ.getD k 0]? := by
  induction σ with
  | nil => intro k hk; simp at hk
  | cons a t ih =>
    intro k hk
    have ha : a < xs.length := hmem a (List.mem_cons_self a t)
    rw [List.filterMap_cons, List.getElem?_eq_getElem ha]
    cases k with
    | zero => simp
    | succ k =>
      have hk' : k < t.length := by simpa using hk
      simpa using ih (fun i hi => hmem i (List.mem_cons_of_mem a hi)) hk'

theorem applyP_getElem?_lt {σ : List Nat} {xs : List α}
    (hmem : ∀ i ∈ σ, i < xs.length) {k : Nat} (hk : k < σ.length) :
    (applyP σ xs)[k]? = xs[σ.getD k 0]? := by
  unfold applyP
  rw [List.getElem?_append_left (by rwa [length_filterMap_getElem? hmem])]
  exact filterMap_getElem?_getElem? hmem hk

theorem applyP_getElem?_ge {σ : List Nat} {xs : List α}
    (hmem : ∀ i ∈ σ, i < xs.length) {k : Nat} (hk : σ.length ≤ k) :
    (applyP σ xs)[k]? = xs[k]? := by
  unfold applyP
  rw [List.getElem?_append_right (by rwa [length_filterMap_getElem? hmem])]
  rw [length_filterMap_getElem? hmem, List.getElem?_drop]
  congr 1
  omega

theorem mem_applyP {σ : List Nat} {xs : List α}
    (hmem : ∀ i ∈ σ, i < xs.length) {a : α} (ha : a ∈ applyP σ xs) : a ∈ xs := by
  unfold applyP at ha
  rcases List.mem_append.1 ha with h | h
  · rcases List.mem_filterMap.1 h with ⟨i, _, hgi⟩
    exact List.getElem?_mem hgi
  · exact List.mem_of_mem_drop h

theorem getD_mem_of_lt {σ : List Nat} {k : Nat} (hk : k < σ.length) : σ.getD k 0 ∈ σ := by
  rw [List.getD_eq_getElem?_getD, List.getElem?_eq_getElem hk]
  exact List.getElem_mem hk

theorem applyP_assoc {σ τ : List Nat} {xs : List α}
    (hσm : ∀ i ∈ σ, i < τ.length) (hστ : σ.length ≤ τ.length)
    (hτm : ∀ i ∈ τ, i < xs.length) (hτl : τ.length ≤ xs.length) :
    applyP σ (applyP τ xs) = applyP (applyP σ τ) xs := by
  have hτY : (applyP τ xs).length = xs.length := applyP_length hτm hτl
  have hσY : ∀ i ∈ σ, i < (applyP τ xs).length := by
    intro i hi; rw [hτY]; exact Nat.lt_of_lt_of_le (hσm i hi) hτl
  have hc_len : (applyP σ τ).length = τ.length := applyP_length hσm hστ
  have hc_mem : ∀ i ∈ applyP σ τ, i < xs.length := fun i hi => hτm i (mem_applyP hσm hi)
  apply List.ext_getElem?
  intro k
  by_cases hk1 : k < σ.length
  · rw [applyP_getElem?_lt hσY hk1]
    have hσk : σ.getD k 0 < τ.length := hσm _ (getD_mem_of_lt hk1)
    rw [applyP_getElem?_lt hτm hσk]
    rw [applyP_getElem?_lt hc_mem (by omega)]
    congr 1
    conv_rhs => rw [List.getD_eq_getElem?_getD]
    rw [applyP_getElem?_lt hσm hk1]
    exact List.getD_eq_getElem?_getD τ _ 0
  · by_cases hk2 : k < τ.length
    · rw [applyP_getElem?_ge hσY (by omega)]
      rw [applyP_getElem?_lt hτm hk2]
      rw [applyP_getElem?_lt hc_mem (by omega)]
      congr 1
      conv_rhs => rw [List.getD_eq_getElem?_getD]
      rw [applyP_getElem?_ge hσm (by omega)]
      exact List.getD_eq_getElem?_getD τ _ 0
    · rw [applyP_getElem?_ge hσY (by omega)]
      rw [applyP_getElem?_ge hτm (by omega)]
      rw [applyP_getElem?_ge hc_mem (by omega)]

theorem applyP_swapAt {C : List Nat} {xs : List α} {a b : Nat}
    (hmem : ∀ i ∈ C, i < xs.length) (hlen : C.length ≤ xs.length)
    (ha : a < C.length) (hb : b < C.length) :
    swapAt (applyP C xs) a b = applyP (swapAt C a b) xs := by
  have hY : (applyP C xs).length = xs.length := applyP_length hmem hlen
  have haY : a < (applyP C xs).length := by omega
  have hbY : b < (applyP C xs).length := by omega
  have hs_len : (swapAt C a b).length = C.length := swapAt_length C a b
  have hs_mem : ∀ i ∈ swapAt C a b, i < xs.length := fun i hi => hmem i (swapAt_mem.1 hi)
  apply List.ext_getElem?
  intro k
  rw [swapAt_getElem? haY hbY k]
  by_cases hk : k < C.length
  · rw [applyP_getElem?_lt hs_mem (by omega)]
    have hsk : (swapAt C a b).getD k 0 =
        if b = k then C.getD a 0 else if a = k then C.getD b 0 else C.getD k 0 := by
      rw [List.getD_eq_getElem?_getD, swapAt_getElem? ha hb k]
      by_cases h1 : b = k
      · simp only [if_pos h1]
        rw [List.getElem?_eq_getElem ha, List.getD_eq_getElem?_getD,
          List.getElem?_eq_getElem ha]
      · by_cases h2 : a = k
        · simp only [if_neg h1, if_pos h2]
          rw [List.getElem?_eq_getElem hb, List.getD_eq_getElem?_getD,
            List.getElem?_eq_getElem hb]
        · simp only [if_neg h1, if_neg h2]
          rw [List.getElem?_eq_getElem hk, List.getD_eq_getElem?_getD,
            List.getElem?_eq_getElem hk]
    rw [hsk]
    by_cases h1 : b = k
    · simp only [if_pos h1]
      exact applyP_getElem?_lt hmem ha
    · by_cases h2 : a = k
      · simp only [if_neg h1, if_pos h2]
        exact applyP_getElem?_lt hmem hb
      · simp only [if_neg h1, if_neg h2]
        exact applyP_getElem?_lt hmem hk
  · rw [if_neg (by omega), if_neg (by omega), applyP_getElem?_ge hmem (by omega),
      applyP_getElem?_ge hs_mem (by omega)]

theorem filterMap_getElem?_range {xs : List α} :
    ∀ {k : Nat}, k ≤ xs.length →
      (List.range k).filterMap (fun i => xs[i]?) = xs.take k := by
  intro k
  induction k with
  | zero => intro _; simp
  | succ k ih =>
    intro hk
    rw [List.range_succ, List.filterMap_append, ih (by omega), List.take_succ]
    congr 1

theorem applyP_range {k : Nat} {xs : List α} (hk : k ≤ xs.length) :
    applyP (List.range k) xs = xs := by
  unfold applyP
  rw [filterMap_getElem?_range hk]
  simp [List.take_append_drop]

theorem applyP_perm {σ : List Nat} {xs : List α} (hnd : σ.Nodup)
    (hmem : ∀ i ∈ σ, i < σ.length) (hlen : σ.length ≤ xs.length) :
    (applyP σ xs) ~ xs := by
  have hsub : σ ⊆ List.range σ.length := by
    intro i hi
    exact List.mem_range.2 (hmem i hi)
  have hsp : σ <+~ List.range σ.length := List.subperm_of_subset hnd hsub
  have hp : σ ~ List.range σ.length :=
    hsp.perm_of_length_le (by simp)
  have hmem' : ∀ i ∈ σ, i < xs.length := fun i hi => Nat.lt_of_lt_of_le (hmem i hi) hlen
  have h1 : (σ.filterMap (fun i => xs[i]?)) ~ ((List.range σ.length).filterMap (fun i => xs[i]?)) :=
    hp.filterMap _
  rw [filterMap_getElem?_range hlen] at h1
  calc applyP σ xs
      ~ (xs.take σ.length ++ xs.drop σ.length) := h1.append_right _
    _ = xs := List.take_append_drop _ _

theorem sigma_chain_eq :
    ∀ s, s < 7 → sigma (s+2) = sigChain (sigma (s+1)) (s+1) (s+1) 0 (List.range (s+2)) := by
  decide

theorem bChain_range_nodup :
    ∀ s, s < 7 → (bChain (sigma (s+1)) (s+1) (s+1) 0 (List.range (s+2))).Nodup := by
  decide

theorem sigma_length : ∀ s, s < 9 → (sigma s).length = s := by
  decide

theorem sigma_mem : ∀ s, s < 9 → ∀ i ∈ sigma s, i < s := by
  decide

theorem sigma_nodup : ∀ s, s < 9 → (sigma s).Nodup := by
  decide

/-! ### Final-state characterization and distinctness of the enumeration -/

theorem hv_step_eq {s : Nat}
    (hT1 : ∀ Y : List α, s+1 ≤ Y.length → (hv (s+1) Y).1 = applyP (sigma (s+1)) Y)
    (hσl : (sigma (s+1)).length = s+1) (hσm : ∀ i ∈ sigma (s+1), i < s+1)
    {C : List Nat} {xs : List α} (hCl : C.length = s+2) (hCm : ∀ v ∈ C, v < s+2)
    (hxl : s+2 ≤ xs.length) {j : Nat} (hj : j < s+2) :
    swapAt ((hv (s+1) (applyP C xs)).1) j (s+1)
      = applyP (swapAt (applyP (sigma (s+1)) C) j (s+1)) xs := by
  have hCm' : ∀ v ∈ C, v < xs.length := fun v hv0 => Nat.lt_of_lt_of_le (hCm v hv0) hxl
  have hYl : (applyP C xs).length = xs.length := applyP_length hCm' (by omega)
  have h1 : (hv (s+1) (applyP C xs)).1 = applyP (sigma (s+1)) (applyP C xs) :=
    hT1 _ (by omega)
  have hσm' : ∀ i ∈ sigma (s+1), i < C.length := by
    intro i hi
    have := hσm i hi
    omega
  have h2 : applyP (sigma (s+1)) (applyP C xs) = applyP (applyP (sigma (s+1)) C) xs :=
    applyP_assoc hσm' (by omega) hCm' (by omega)
  have hC1l : (applyP (sigma (s+1)) C).length = C.length := applyP_length hσm' (by omega)
  have hC1m : ∀ v ∈ applyP (sigma (s+1)) C, v < xs.length :=
    fun v hv0 => hCm' v (mem_applyP hσm' hv0)
  rw [h1, h2]
  exact applyP_swapAt hC1m (by omega) (by omega) (by omega)

theorem hv_chain_final {s : Nat}
    (hT1 : ∀ Y : List α, s+1 ≤ Y.length → (hv (s+1) Y).1 = applyP (sigma (s+1)) Y)
    (hσl : (sigma (s+1)).length = s+1) (hσm : ∀ i ∈ sigma (s+1), i < s+1) :
    ∀ (r i : Nat) (C : List Nat) (xs : List α),
      C.length = s+2 → (∀ v ∈ C, v < s+2) → s+2 ≤ xs.length → i + r < s+2 →
      (hvLoop (hv (s+1)) (fun z => if (s+2) % 2 = 0 then z else 0) (s+1) r i
          (applyP C xs)).1
        = applyP (sigChain (sigma (s+1)) (s+1) r i C) xs := by
  intro r
  induction r with
  | zero =>
    intro i C xs hCl hCm hxl _
    have hCm' : ∀ v ∈ C, v < xs.length := fun v hv0 => Nat.lt_of_lt_of_le (hCm v hv0) hxl
    have hYl : (applyP C xs).length = xs.length := applyP_length hCm' (by omega)
    have hσm' : ∀ i ∈ sigma (s+1), i < C.length := by
      intro i hi
      have := hσm i hi
      omega
    show (hv (s+1) (applyP C xs)).1 = applyP (applyP (sigma (s+1)) C) xs
    rw [hT1 _ (by omega)]
    exact applyP_assoc hσm' (by omega) hCm' (by omega)
  | succ r ih =>
    intro i C xs hCl hCm hxl hir
    have hj : (if (s+2) % 2 = 0 then i else 0) < s+2 := by split <;> omega
    have hstep := hv_step_eq hT1 hσl hσm hCl hCm hxl hj
    have hσm' : ∀ i ∈ sigma (s+1), i < C.length := by
      intro i hi
      have := hσm i hi
      omega
    have hC1l : (applyP (sigma (s+1)) C).length = C.length := applyP_length hσm' (by omega)
    have hCnext_l : (swapAt (applyP (sigma (s+1)) C) (if (s+2) % 2 = 0 then i else 0)
        (s+1)).length = s+2 := by
      rw [swapAt_length, hC1l, hCl]
    have hCnext_m : ∀ v ∈ swapAt (applyP (sigma (s+1)) C) (if (s+2) % 2 = 0 then i else 0)
        (s+1), v < s+2 := by
      intro v hv0
      exact hCm v (mem_applyP hσm' (swapAt_mem.1 hv0))
    simp only [hvLoop, sigChain]
    rw [hstep]
    exact ih (i+1) _ xs hCnext_l hCnext_m hxl (by omega)

theorem hv_final_eq : ∀ (s : Nat), s ≤ 8 → ∀ (xs : List α), s ≤ xs.length →
    (hv s xs).1 = applyP (sigma s) xs := by
  intro s
  induction s using Nat.strong_induction_on with
  | _ s ih =>
    match s with
    | 0 =>
      intro _ xs _
      show xs = applyP [] xs
      simp [applyP]
    | 1 =>
      intro _ xs h1
      match xs, h1 with
      | x :: t, _ =>
        show x :: t = applyP [0] (x :: t)
        simp [applyP]
    | s+2 =>
      intro h8 xs hxl
      have hT1 : ∀ Y : List α, s+1 ≤ Y.length → (hv (s+1) Y).1 = applyP (sigma (s+1)) Y :=
        fun Y hY => ih (s+1) (by omega) (by omega) Y hY
      have hσl := sigma_length (s+1) (by omega)
      have hσm := sigma_mem (s+1) (by omega)
      have hstart : applyP (List.range (s+2)) xs = xs := applyP_range (by omega)
      have hch := hv_chain_final hT1 hσl hσm (s+1) 0 (List.range (s+2)) xs
        (by simp) (fun v hv0 => List.mem_range.1 hv0) hxl (by omega)
      rw [hstart] at hch
      have hrw : (hv (s+2) xs : List α × List (List α)) =
          hvLoop (hv (s+1)) (fun z => if (s+2) % 2 = 0 then z else 0) (s+1) (s+1) 0 xs :=
        hv.eq_3 xs s
      rw [hrw, hch, ← sigma_chain_eq s (by omega)]

theorem bChain_mem_lt {s : Nat}
    (hσl : (sigma (s+1)).length = s+1) (hσm : ∀ i ∈ sigma (s+1), i < s+1) :
    ∀ (r i : Nat) (C : List Nat), C.length = s+2 → (∀ v ∈ C, v < s+2) →
      ∀ b ∈ bChain (sigma (s+1)) (s+1) r i C, b < s+2 := by
  intro r
  induction r with
  | zero =>
    intro i C hCl hCm b hb
    simp only [bChain, List.mem_singleton] at hb
    subst hb
    exact hCm _ (getD_mem_of_lt (by omega))
  | succ r ih =>
    intro i C hCl hCm b hb
    simp only [bChain, List.mem_cons] at hb
    have hσm' : ∀ i ∈ sigma (s+1), i < C.length := by
      intro i hi
      have := hσm i hi
      omega
    have hC1l : (applyP (sigma (s+1)) C).length = C.length := applyP_length hσm' (by omega)
    rcases hb with hb | hb
    · subst hb
      exact hCm _ (getD_mem_of_lt (by omega))
    · refine ih (i+1) _ ?_ ?_ b hb
      · rw [swapAt_length, hC1l, hCl]
      · intro v hv0
        exact hCm v (mem_applyP hσm' (swapAt_mem.1 hv0))

theorem hv_block_last {s : Nat} {Y q : List α} (hq : q ∈ (hv (s+1) Y).2) :
    q[s+1]? = Y[s+1]? := by
  have hd := (hv_drop (s+1) Y).2 q hq
  have h0 := congrArg (fun l => l[0]?) hd
  simpa [List.getElem?_drop] using h0

theorem getElem?_inj_of_nodup {xs : List α} (hnd : xs.Nodup) {b1 b2 : Nat}
    (hb1 : b1 < xs.length) (hb2 : b2 < xs.length) (h : xs[b1]? = xs[b2]?) : b1 = b2 := by
  rw [List.getElem?_eq_getElem hb1, List.getElem?_eq_getElem hb2] at h
  exact (hnd.getElem_inj_iff).1 (Option.some.inj h)

theorem hv_chain_nodup {s : Nat}
    (hT1 : ∀ Y : List α, s+1 ≤ Y.length → (hv (s+1) Y).1 = applyP (sigma (s+1)) Y)
    (hD : ∀ Y : List α, s+1 ≤ Y.length → Y.Nodup → (hv (s+1) Y).2.Nodup)
    (hσl : (sigma (s+1)).length = s+1) (hσm : ∀ i ∈ sigma (s+1), i < s+1)
    (hσnd : (sigma (s+1)).Nodup) :
    ∀ (r i : Nat) (C : List Nat) (xs : List α),
      C.length = s+2 → (∀ v ∈ C, v < s+2) → C.Nodup → s+2 ≤ xs.length → xs.Nodup →
      i + r < s+2 → (bChain (sigma (s+1)) (s+1) r i C).Nodup →
      (hvLoop (hv (s+1)) (fun z => if (s+2) % 2 = 0 then z else 0) (s+1) r i
          (applyP C xs)).2.Nodup ∧
      ∀ q ∈ (hvLoop (hv (s+1)) (fun z => if (s+2) % 2 = 0 then z else 0) (s+1) r i
          (applyP C xs)).2,
        ∃ b ∈ bChain (sigma (s+1)) (s+1) r i C, q[s+1]? = xs[b]? := by
  intro r
  induction r with
  | zero =>
    intro i C xs hCl hCm hCnd hxl hxnd _ _
    have hCm' : ∀ v ∈ C, v < xs.length := fun v hv0 => Nat.lt_of_lt_of_le (hCm v hv0) hxl
    have hYl : (applyP C xs).length = xs.length := applyP_length hCm' (by omega)
    have hYnd : (applyP C xs).Nodup :=
      ((applyP_perm hCnd (fun v hv0 => by rw [hCl]; exact hCm v hv0)
        (by omega)).nodup_iff).2 hxnd
    constructor
    · exact hD _ (by omega) hYnd
    · intro q hq
      refine ⟨C.getD (s+1) 0, by simp [bChain], ?_⟩
      rw [hv_block_last hq]
      exact applyP_getElem?_lt hCm' (by omega)
  | succ r ih =>
    intro i C xs hCl hCm hCnd hxl hxnd hir hbnd
    have hCm' : ∀ v ∈ C, v < xs.length := fun v hv0 => Nat.lt_of_lt_of_le (hCm v hv0) hxl
    have hYl : (applyP C xs).length = xs.length := applyP_length hCm' (by omega)
    have hYnd : (applyP C xs).Nodup :=
      ((applyP_perm hCnd (fun v hv0 => by rw [hCl]; exact hCm v hv0)
        (by omega)).nodup_iff).2 hxnd
    have hj : (if (s+2) % 2 = 0 then i else 0) < s+2 := by split <;> omega
    have hstep := hv_step_eq hT1 hσl hσm hCl hCm hxl hj
    have hσm' : ∀ v ∈ sigma (s+1), v < C.length := by
      intro v hv0
      have := hσm v hv0
      omega
    have hC1l : (applyP (sigma (s+1)) C).length = C.length := applyP_length hσm' (by omega)
    have hC1nd : (applyP (sigma (s+1)) C).Nodup :=
      ((applyP_perm hσnd (fun v hv0 => by rw [hσl]; exact hσm v hv0)
        (by omega)).nodup_iff).2 hCnd
    have hCnl : (swapAt (applyP (sigma (s+1)) C) (if (s+2) % 2 = 0 then i else 0)
        (s+1)).length = s+2 := by
      rw [swapAt_length, hC1l, hCl]
    have hCnm : ∀ v ∈ swapAt (applyP (sigma (s+1)) C) (if (s+2) % 2 = 0 then i else 0)
        (s+1), v < s+2 :=
      fun v hv0 => hCm v (mem_applyP hσm' (swapAt_mem.1 hv0))
    have hCnnd : (swapAt (applyP (sigma (s+1)) C) (if (s+2) % 2 = 0 then i else 0)
        (s+1)).Nodup := ((swapAt_perm _ _ _).nodup_iff).2 hC1nd
    simp only [bChain] at hbnd
    have hb0 := (List.nodup_cons.1 hbnd).1
    have hbtl := (List.nodup_cons.1 hbnd).2
    have IH := ih (i+1) _ xs hCnl hCnm hCnnd hxl hxnd (by omega) hbtl
    simp only [hvLoop, bChain]
    rw [hstep]
    constructor
    · rw [List.nodup_append]
      refine ⟨hD _ (by omega) hYnd, IH.1, ?_⟩
      intro x hx1 hx2
      have hxv1 : x[s+1]? = xs[C.getD (s+1) 0]? := by
        rw [hv_block_last hx1]
        exact applyP_getElem?_lt hCm' (by omega)
      obtain ⟨b', hb'm, hb'e⟩ := IH.2 x hx2
      have hb'lt : b' < s+2 := bChain_mem_lt hσl hσm r (i+1) _ hCnl hCnm b' hb'm
      have hb0lt : C.getD (s+1) 0 < s+2 := hCm _ (getD_mem_of_lt (by omega))
      have heq : C.getD (s+1) 0 = b' :=
        getElem?_inj_of_nodup hxnd (by omega) (by omega) (hxv1.symm.trans hb'e)
      exact hb0 (heq ▸ hb'm)
    · intro q hq
      rcases List.mem_append.1 hq with h | h
      · refine ⟨C.getD (s+1) 0, List.mem_cons_self _ _, ?_⟩
        rw [hv_block_last h]
        exact applyP_getElem?_lt hCm' (by omega)
      · obtain ⟨b', hb'm, hb'e⟩ := IH.2 q h
        exact ⟨b', List.mem_cons_of_mem _ hb'm, hb'e⟩

theorem hv_nodup : ∀ (s : Nat), s ≤ 8 → ∀ (xs : List α), s ≤ xs.length → xs.Nodup →
    (hv s xs).2.Nodup := by
  intro s
  induction s using Nat.strong_induction_on with
  | _ s ih =>
    match s with
    | 0 =>
      intro _ xs _ _
      simp [hv]
    | 1 =>
      intro _ xs _ _
      simp [hv]
    | s+2 =>
      intro h8 xs hxl hxnd
      have hT1 : ∀ Y : List α, s+1 ≤ Y.length → (hv (s+1) Y).1 = applyP (sigma (s+1)) Y :=
        fun Y hY => hv_final_eq (s+1) (by omega) Y hY
      have hD : ∀ Y : List α, s+1 ≤ Y.length → Y.Nodup → (hv (s+1) Y).2.Nodup :=
        fun Y hY hnd => ih (s+1) (by omega) (by omega) Y hY hnd
      have hσl := sigma_length (s+1) (by omega)
      have hσm := sigma_mem (s+1) (by omega)
      have hσnd := sigma_nodup (s+1) (by omega)
      have hstart : applyP (List.range (s+2)) xs = xs := applyP_range (by omega)
      have hch := (hv_chain_nodup hT1 hD hσl hσm hσnd (s+1) 0 (List.range (s+2)) xs
        (by simp) (fun v hv0 => List.mem_range.1 hv0) (List.nodup_range _) hxl hxnd
        (by omega) (bChain_range_nodup s (by omega))).1
      rw [hstart] at hch
      have hrw : (hv (s+2) xs : List α × List (List α)) =
          hvLoop (hv (s+1)) (fun z => if (s+2) % 2 = 0 then z else 0) (s+1) (s+1) 0 xs :=
        hv.eq_3 xs s
      rw [hrw]
      exact hch

/-! ### The iterative engine: loop characterization -/

theorem getD_of_le {c : List Nat} {i : Nat} (h : c.length ≤ i) : c.getD i 0 = 0 := by
  rw [List.getD_eq_getElem?_getD, List.getElem?_eq_none h]
  rfl

theorem npLoop_halt {d : List α} {c : List Nat} {n fuel : Nat} (h : ¬ 1 + n < d.length) :
    npLoop d (fuel+1) c n = (none, c, n) := by
  simp [npLoop, h]

theorem npLoop_emit {d : List α} {c : List Nat} {n fuel : Nat}
    (hlt : 1 + n < d.length) (hc : c.getD n 0 ≤ n) :
    npLoop d (fuel+1) c n =
      (some (swapAt d (if n % 2 = 0 then c.getD n 0 else 0) (n+1)),
        c.set n (c.getD n 0 + 1), 0) := by
  simp only [npLoop]
  rw [if_pos hlt, if_pos hc]

theorem npLoop_carry {d : List α} {c : List Nat} {n fuel : Nat}
    (hlt : 1 + n < d.length) (hc : ¬ c.getD n 0 ≤ n) :
    npLoop d (fuel+1) c n = npLoop d fuel (c.set n 0) (n+1) := by
  simp only [npLoop]
  rw [if_pos hlt, if_neg hc]

theorem npLoop_scan {d : List α} {c : List Nat} :
    ∀ (k fuel : Nat), (∀ i, i < k → c.getD i 0 = i + 1) → k < d.length →
      npLoop d (k + fuel + 1) c 0 = npLoop d (fuel + 1) (resetRange c k) k := by
  intro k
  induction k with
  | zero =>
    intro fuel _ _
    rw [Nat.zero_add]
    simp only [resetRange]
  | succ k ih =>
    intro fuel hsat hk
    have h1 : npLoop d (k + (fuel+1) + 1) c 0 = npLoop d (fuel+1+1) (resetRange c k) k :=
      ih (fuel+1) (fun i hi => hsat i (by omega)) (by omega)
    have harith : (k+1) + fuel + 1 = k + (fuel+1) + 1 := by omega
    rw [harith, h1]
    have hck : (resetRange c k).getD k 0 = k + 1 := by
      rw [getD_resetRange]
      rw [if_neg (by omega)]
      exact hsat k (by omega)
    rw [npLoop_carry (by omega) (by omega)]
    simp only [resetRange]

theorem np_first (d : List α) (c : List Nat) :
    Heap.next_permutation (⟨d, U32MAX, c⟩ : Heap α) = (some d, ⟨d, 0, c⟩) := by
  simp [Heap.next_permutation]

theorem np_emit {d : List α} {c : List Nat} {k v : Nat}
    (hsat : ∀ i, i < k → c.getD i 0 = i + 1) (hv0 : c.getD k 0 = v) (hvk : v ≤ k)
    (hk : 1 + k < d.length) :
    Heap.next_permutation (⟨d, 0, c⟩ : Heap α) =
      (some (swapAt d (if k % 2 = 0 then v else 0) (k+1)),
        ⟨swapAt d (if k % 2 = 0 then v else 0) (k+1), 0,
          (resetRange c k).set k (v + 1)⟩) := by
  have h0 : (0 : Nat) ≠ U32MAX := by decide
  show (if (0 : Nat) = U32MAX then _ else _) = _
  rw [if_neg h0]
  have hscan : npLoop d (k + (d.length - k) + 1) c 0
      = npLoop d ((d.length - k) + 1) (resetRange c k) k :=
    npLoop_scan k (d.length - k) hsat (by omega)
  have harith : d.length + 1 = k + (d.length - k) + 1 := by omega
  rw [harith, hscan]
  have hck : (resetRange c k).getD k 0 = v := by
    rw [getD_resetRange, if_neg (by omega)]
    exact hv0
  obtain ⟨f, hf⟩ : ∃ f, d.length - k = f + 1 := ⟨d.length - k - 1, by omega⟩
  rw [hf]
  rw [npLoop_emit (by omega) (by omega)]
  rw [hck]

theorem np_halt {d : List α} {c : List Nat} (hlen : 1 ≤ d.length)
    (hsat : ∀ i, i < d.length - 1 → c.getD i 0 = i + 1) :
    Heap.next_permutation (⟨d, 0, c⟩ : Heap α) =
      (none, ⟨d, d.length - 1, resetRange c (d.length - 1)⟩) := by
  have h0 : (0 : Nat) ≠ U32MAX := by decide
  show (if (0 : Nat) = U32MAX then _ else _) = _
  rw [if_neg h0]
  have hscan : npLoop d ((d.length - 1) + 1 + 1) c 0
      = npLoop d (1 + 1) (resetRange c (d.length - 1)) (d.length - 1) :=
    npLoop_scan (d.length - 1) 1 hsat (by omega)
  have harith : d.length + 1 = (d.length - 1) + 1 + 1 := by omega
  rw [harith, hscan]
  rw [npLoop_halt (by omega)]

theorem np_stuck {d : List α} {c : List Nat} {n : Nat} (hn : n ≠ U32MAX)
    (h : ¬ 1 + n < d.length) :
    Heap.next_permutation (⟨d, n, c⟩ : Heap α) = (none, ⟨d, n, c⟩) := by
  show (if n = U32MAX then _ else _) = _
  rw [if_neg hn]
  rw [npLoop_halt h]

theorem runHeapF_some {h h' : Heap α} {d : List α} {fuel : Nat}
    (hs : h.next_permutation = (some d, h')) :
    runHeapF (fuel+1) h = d :: runHeapF fuel h' := by
  simp [runHeapF, hs]

theorem runHeapF_none {h h' : Heap α} {fuel : Nat}
    (hs : h.next_permutation = (none, h')) :
    runHeapF (fuel+1) h = [] := by
  simp [runHeapF, hs]

theorem satRange_set_absorb {c : List Nat} {t : Nat} (hct : c.getD t 0 = t + 1) :
    satRange c (t+1) = satRange c t := by
  have htlen : t < c.length := by
    by_contra hc0
    rw [getD_of_le (by omega)] at hct
    omega
  apply eq_of_getD_eq
  · show ((satRange c t).set t (t+1)).length = (satRange c t).length
    simp
  · intro i
    show ((satRange c t).set t (t+1)).getD i 0 = (satRange c t).getD i 0
    by_cases hit : t = i
    · subst hit
      have hl : t < (satRange c t).length := by
        rw [length_satRange]
        omega
      rw [List.getD_eq_getElem?_getD, List.getElem?_set_self hl]
      have hgs : (satRange c t).getD t 0 = if t < t then t + 1 else c.getD t 0 :=
        getD_satRange c t (by omega : t ≤ c.length)
      rw [hgs, if_neg (by omega), hct]
      rfl
    · rw [List.getD_eq_getElem?_getD, List.getElem?_set_ne hit,
        ← List.getD_eq_getElem?_getD]

theorem satRange_congr_above {c₁ c₂ : List Nat} {k : Nat}
    (hl : c₁.length = c₂.length) (hk : k ≤ c₁.length)
    (h : ∀ i, k ≤ i → c₁.getD i 0 = c₂.getD i 0) :
    satRange c₁ k = satRange c₂ k := by
  apply eq_of_getD_eq
  · rw [length_satRange, length_satRange, hl]
  · intro i
    rw [getD_satRange c₁ i hk, getD_satRange c₂ i (by omega : k ≤ c₂.length)]
    by_cases hik : i < k
    · rw [if_pos hik, if_pos hik]
    · rw [if_neg hik, if_neg hik]
      exact h i (by omega)

/-! ### The iterative engine runs the uniform recursion -/

theorem iterInner {t : Nat}
    (ih : ∀ (d : List α) (c : List Nat) (fuel : Nat),
      c.length = MAXHEAP - 1 → (∀ i, i < t → c.getD i 0 = 0) →
      t + 1 ≤ d.length → d.length ≤ MAXHEAP →
      runHeapF ((hv (t+1) d).2.length - 1 + fuel) (⟨d, 0, c⟩ : Heap α)
        = (hv (t+1) d).2.tail
          ++ runHeapF fuel (⟨(hv (t+1) d).1, 0, satRange c t⟩ : Heap α)) :
    ∀ (r : Nat), r ≤ t + 1 → ∀ (d : List α) (c : List Nat) (fuel : Nat),
      c.length = MAXHEAP - 1 → (∀ i, i < t → c.getD i 0 = 0) →
      c.getD t 0 = (t+1) - r → t + 2 ≤ d.length → d.length ≤ MAXHEAP →
      runHeapF ((hvL t r ((t+1) - r) d).2.length - 1 + fuel) (⟨d, 0, c⟩ : Heap α)
        = (hvL t r ((t+1) - r) d).2.tail
          ++ runHeapF fuel (⟨(hvL t r ((t+1) - r) d).1, 0, satRange c (t+1)⟩ : Heap α) := by
  intro r
  induction r with
  | zero =>
    intro _ d c fuel hcl hfresh hct hlen hmax
    simp only [hvL, hvLoop]
    have hIT := ih d c fuel hcl hfresh (by omega) hmax
    have habs : satRange c (t+1) = satRange c t :=
      satRange_set_absorb (by simpa using hct)
    rw [habs]
    exact hIT
  | succ r ihr =>
    intro hr d c fuel hcl hfresh hct hlen hmax
    have hq_len : (hv (t+1) d).2.length = Nat.factorial (t+1) := hv_length (t+1) d
    have hfac_pos : 0 < Nat.factorial (t+1) := Nat.factorial_pos _
    have hq1len : (hv (t+1) d).1.length = d.length := (hv_perm (t+1) d).1.length_eq
    simp only [hvL, hvLoop]
    rw [show (t+1) - (r+1) + 1 = (t+1) - r from by omega]
    rw [List.length_append]
    have hP_len : (hvLoop (hv (t+1)) (fun x => if (t+2) % 2 = 0 then x else 0) (t+1) r
        ((t+1) - r)
        (swapAt (hv (t+1) d).1 (if (t+2) % 2 = 0 then (t+1) - (r+1) else 0) (t+1))).2.length
        = (r+1) * Nat.factorial (t+1) :=
      hvLoop_length (fun x => hv_length (t+1) x) r _ _
    have h1 : 1 ≤ (hv (t+1) d).2.length := by omega
    have h2 : 1 ≤ (hvLoop (hv (t+1)) (fun x => if (t+2) % 2 = 0 then x else 0) (t+1) r
        ((t+1) - r)
        (swapAt (hv (t+1) d).1 (if (t+2) % 2 = 0 then (t+1) - (r+1) else 0) (t+1))).2.length := by
      rw [hP_len]
      exact Nat.mul_pos (Nat.succ_pos r) hfac_pos
    rw [show (hv (t+1) d).2.length
          + (hvLoop (hv (t+1)) (fun x => if (t+2) % 2 = 0 then x else 0) (t+1) r
            ((t+1) - r)
            (swapAt (hv (t+1) d).1 (if (t+2) % 2 = 0 then (t+1) - (r+1) else 0) (t+1))).2.length
          - 1 + fuel
        = (hv (t+1) d).2.length - 1
          + (1 + ((hvLoop (hv (t+1)) (fun x => if (t+2) % 2 = 0 then x else 0) (t+1) r
            ((t+1) - r)
            (swapAt (hv (t+1) d).1 (if (t+2) % 2 = 0 then (t+1) - (r+1) else 0)
              (t+1))).2.length - 1 + fuel)) from by omega]
    rw [ih d c _ hcl hfresh (by omega) hmax]
    have hsat_below : ∀ i, i < t → (satRange c t).getD i 0 = i + 1 := by
      intro i hi
      rw [getD_satRange c i (by omega : t ≤ c.length), if_pos hi]
    have hsat_t : (satRange c t).getD t 0 = (t+1) - (r+1) := by
      rw [getD_satRange c t (by omega : t ≤ c.length), if_neg (by omega)]
      exact hct
    have hemit := np_emit (d := (hv (t+1) d).1) hsat_below hsat_t
      (by omega : (t+1) - (r+1) ≤ t) (by omega : 1 + t < (hv (t+1) d).1.length)
    rw [show (if t % 2 = 0 then (t+1) - (r+1) else 0)
        = (if (t+2) % 2 = 0 then (t+1) - (r+1) else 0) from by rw [Nat.add_mod_right]] at hemit
    rw [show 1 + ((hvLoop (hv (t+1)) (fun x => if (t+2) % 2 = 0 then x else 0) (t+1) r
          ((t+1) - r)
          (swapAt (hv (t+1) d).1 (if (t+2) % 2 = 0 then (t+1) - (r+1) else 0)
            (t+1))).2.length - 1 + fuel)
        = ((hvLoop (hv (t+1)) (fun x => if (t+2) % 2 = 0 then x else 0) (t+1) r
          ((t+1) - r)
          (swapAt (hv (t+1) d).1 (if (t+2) % 2 = 0 then (t+1) - (r+1) else 0)
            (t+1))).2.length - 1 + fuel) + 1 from by omega]
    rw [runHeapF_some hemit]
    have hc2l : ((resetRange (satRange c t) t).set t ((t+1) - (r+1) + 1)).length
        = MAXHEAP - 1 := by
      rw [List.length_set, length_resetRange, length_satRange, hcl]
    have hc2fresh : ∀ i, i < t →
        ((resetRange (satRange c t) t).set t ((t+1) - (r+1) + 1)).getD i 0 = 0 := by
      intro i hi
      rw [List.getD_eq_getElem?_getD, List.getElem?_set_ne (by omega : t ≠ i),
        ← List.getD_eq_getElem?_getD, getD_resetRange, if_pos hi]
    have hc2t : ((resetRange (satRange c t) t).set t ((t+1) - (r+1) + 1)).getD t 0
        = (t+1) - r := by
      have htl : t < ((resetRange (satRange c t) t)).length := by
        rw [length_resetRange, length_satRange]
        omega
      rw [List.getD_eq_getElem?_getD, List.getElem?_set_self htl]
      show (t+1) - (r+1) + 1 = (t+1) - r
      omega
    have hY2l : (swapAt (hv (t+1) d).1 (if (t+2) % 2 = 0 then (t+1) - (r+1) else 0)
        (t+1)).length = d.length := by
      rw [swapAt_length, hq1len]
    have hINN := ihr (by omega)
      (swapAt (hv (t+1) d).1 (if (t+2) % 2 = 0 then (t+1) - (r+1) else 0) (t+1))
      ((resetRange (satRange c t) t).set t ((t+1) - (r+1) + 1)) fuel
      hc2l hc2fresh hc2t (by omega) (by omega)
    simp only [hvL] at hINN
    rw [hINN]
    have hcsat : satRange ((resetRange (satRange c t) t).set t ((t+1) - (r+1) + 1)) (t+1)
        = satRange c (t+1) := by
      apply satRange_congr_above
      · rw [List.length_set, length_resetRange, length_satRange]
      · rw [List.length_set, length_resetRange, length_satRange]
        omega
      · intro i hi
        rw [List.getD_eq_getElem?_getD, List.getElem?_set_ne (by omega : t ≠ i),
          ← List.getD_eq_getElem?_getD, getD_resetRange, if_neg (by omega),
          getD_satRange c i (by omega : t ≤ c.length), if_neg (by omega)]
    rw [hcsat]
    have hq_cons := hv_cons (t+1) d
    have hp_cons : (hvLoop (hv (t+1)) (fun x => if (t+2) % 2 = 0 then x else 0) (t+1) r
        ((t+1) - r)
        (swapAt (hv (t+1) d).1 (if (t+2) % 2 = 0 then (t+1) - (r+1) else 0) (t+1))).2
        = (swapAt (hv (t+1) d).1 (if (t+2) % 2 = 0 then (t+1) - (r+1) else 0) (t+1))
          :: (hvLoop (hv (t+1)) (fun x => if (t+2) % 2 = 0 then x else 0) (t+1) r
            ((t+1) - r)
            (swapAt (hv (t+1) d).1 (if (t+2) % 2 = 0 then (t+1) - (r+1) else 0) (t+1))).2.tail :=
      hvLoop_cons (fun x => hv_cons (t+1) x) r ((t+1) - r)
        (swapAt (hv (t+1) d).1 (if (t+2) % 2 = 0 then (t+1) - (r+1) else 0) (t+1))
    rw [hq_cons, hp_cons]
    simp [List.append_assoc]

theorem iterBlock : ∀ (t : Nat) (d : List α) (c : List Nat) (fuel : Nat),
    c.length = MAXHEAP - 1 → (∀ i, i < t → c.getD i 0 = 0) →
    t + 1 ≤ d.length → d.length ≤ MAXHEAP →
    runHeapF ((hv (t+1) d).2.length - 1 + fuel) (⟨d, 0, c⟩ : Heap α)
      = (hv (t+1) d).2.tail
        ++ runHeapF fuel (⟨(hv (t+1) d).1, 0, satRange c t⟩ : Heap α) := by
  intro t
  induction t with
  | zero =>
    intro d c fuel hcl _ hlen hmax
    rw [hv.eq_2]
    simp only [satRange]
    simp
  | succ t ih =>
    intro d c fuel hcl hfresh hlen hmax
    have hrw : (hv (t+1+1) d : List α × List (List α)) =
        hvLoop (hv (t+1)) (fun i => if (t+2) % 2 = 0 then i else 0) (t+1) (t+1) 0 d :=
      hv.eq_3 d t
    rw [hrw]
    have hfin := iterInner ih (t+1) (Nat.le_refl _) d c fuel hcl
      (fun i hi => hfresh i (by omega)) (by rw [hfresh t (by omega)]; omega)
      (by omega) hmax
    simp only [hvL] at hfin
    rw [show (t+1) - (t+1) = 0 from by omega] at hfin
    exact hfin

theorem factorial_eq : ∀ n, factorial n = Nat.factorial n := by
  intro n
  induction n with
  | zero => rfl
  | succ n ih =>
    show (List.range' 1 (n+1)).foldl (· * ·) 1 = _
    rw [List.range'_concat, List.foldl_append]
    simp only [List.foldl_cons, List.foldl_nil, Nat.one_mul]
    show factorial n * (1 + n) = Nat.factorial (n+1)
    rw [ih, Nat.factorial_succ]
    ring

theorem runHeapF_halted (fuel : Nat) (h : Heap α)
    (hn : h.next_permutation.1 = none) : runHeapF fuel h = [] := by
  cases fuel with
  | zero => rfl
  | succ f =>
    have hp : h.next_permutation = (none, h.next_permutation.2) := by
      rw [← hn]
    exact runHeapF_none hp

theorem runHeap_eq_hv (xs : List α) (hlen : xs.length ≤ MAXHEAP) (fuel : Nat) :
    runHeapF (Nat.factorial xs.length + fuel) (mkHeap xs) = (hv xs.length xs).2 := by
  cases xs with
  | nil =>
    show runHeapF (Nat.factorial 0 + fuel) (mkHeap ([] : List α)) = (hv 0 ([] : List α)).2
    rw [show Nat.factorial 0 + fuel = fuel + 1 from by simp [Nat.factorial]; omega]
    rw [show (mkHeap ([] : List α))
        = (⟨[], U32MAX, List.replicate (MAXHEAP - 1) 0⟩ : Heap α) from rfl]
    rw [runHeapF_some (np_first ([] : List α) (List.replicate (MAXHEAP - 1) 0))]
    rw [runHeapF_halted fuel _ (by
      rw [np_stuck (by decide : (0:Nat) ≠ U32MAX) (by simp)])]
    rw [hv.eq_1]
  | cons a l =>
    simp only [List.length_cons]
    simp only [List.length_cons] at hlen
    have hfp : 0 < Nat.factorial (l.length + 1) := Nat.factorial_pos _
    rw [show Nat.factorial (l.length + 1) + fuel
        = (Nat.factorial (l.length + 1) - 1 + fuel) + 1 from by omega]
    rw [show (mkHeap (a :: l))
        = (⟨a :: l, U32MAX, List.replicate (MAXHEAP - 1) 0⟩ : Heap α) from rfl]
    rw [runHeapF_some (np_first (a :: l) (List.replicate (MAXHEAP - 1) 0))]
    rw [show Nat.factorial (l.length + 1) = (hv (l.length + 1) (a :: l)).2.length from
      (hv_length _ _).symm]
    have hIB := iterBlock l.length (a :: l) (List.replicate (MAXHEAP - 1) 0) fuel
      (by simp) (fun i _ => getD_replicate_zero i) (by simp) hlen
    rw [hIB]
    have hd1l : (hv (l.length + 1) (a :: l)).1.length = l.length + 1 := by
      rw [(hv_perm _ _).1.length_eq]
      rfl
    have hfinal : runHeapF fuel
        (⟨(hv (l.length + 1) (a :: l)).1, 0,
          satRange (List.replicate (MAXHEAP - 1) 0) l.length⟩ : Heap α) = [] := by
      apply runHeapF_halted
      rw [np_halt (by omega) ?hs]
      case hs =>
        intro i hi
        rw [hd1l] at hi
        have hcl : l.length ≤ (List.replicate (MAXHEAP - 1) 0).length := by
          have hM : MAXHEAP = 16 := rfl
          simp [MAXHEAP]
          omega
        rw [getD_satRange _ i hcl, if_pos (by omega)]
    rw [hfinal, List.append_nil]
    exact (hv_cons _ _).symm

theorem iterRun_eq_hv (xs : List α) (hlen : xs.length ≤ MAXHEAP) :
    iterRun xs = (hv xs.length xs).2 := by
  show runHeapF (factorial xs.length + 1) (mkHeap xs) = _
  rw [factorial_eq]
  exact runHeap_eq_hv xs hlen 1

/-! ### Exhaustion is stable, and the counters stay bounded -/

theorem npLoop_none (d : List α) : ∀ (fuel : Nat) (c : List Nat) (n : Nat),
    d.length ≤ n + fuel → (npLoop d fuel c n).1 = none →
    ¬ 1 + (npLoop d fuel c n).2.2 < d.length := by
  intro fuel
  induction fuel with
  | zero =>
    intro c n hle _
    simp only [npLoop]
    omega
  | succ fuel ih =>
    intro c n hle h
    simp only [npLoop] at h ⊢
    by_cases hlt : 1 + n < d.length
    · rw [if_pos hlt] at h ⊢
      by_cases hc : c.getD n 0 ≤ n
      · rw [if_pos hc] at h
        simp at h
      · rw [if_neg hc] at h ⊢
        exact ih (c.set n 0) (n+1) (by omega) h
    · rw [if_neg hlt]
      exact hlt

theorem npLoop_n_bound (d : List α) : ∀ (fuel : Nat) (c : List Nat) (n : Nat),
    (npLoop d fuel c n).2.2 = n ∨ (npLoop d fuel c n).2.2 < d.length := by
  intro fuel
  induction fuel with
  | zero => intro c n; left; rfl
  | succ fuel ih =>
    intro c n
    simp only [npLoop]
    by_cases hlt : 1 + n < d.length
    · rw [if_pos hlt]
      by_cases hc : c.getD n 0 ≤ n
      · rw [if_pos hc]
        right
        show 0 < d.length
        omega
      · rw [if_neg hc]
        rcases ih (c.set n 0) (n+1) with h | h
        · right
          omega
        · right
          exact h
    · rw [if_neg hlt]
      left
      rfl

theorem np_none_stable {st st' : Heap α} (hmax : st.data.length ≤ MAXHEAP)
    (h : st.next_permutation = (none, st')) :
    st'.data = st.data ∧ st'.next_permutation = (none, st') := by
  by_cases hU : st.n = U32MAX
  · simp only [Heap.next_permutation] at h
    rw [if_pos hU] at h
    simp at h
  · simp only [Heap.next_permutation] at h
    rw [if_neg hU] at h
    split at h
    · simp at h
    · rename_i cc nn heq
      injection h with h1 h2
      subst h2
      refine ⟨rfl, ?_⟩
      have hnone : (npLoop st.data (st.data.length + 1) st.c st.n).1 = none := by
        rw [heq]
      have hbig := npLoop_none st.data (st.data.length + 1) st.c st.n (by omega) hnone
      rw [heq] at hbig
      have hbig' : ¬ 1 + nn < st.data.length := hbig
      have hb := npLoop_n_bound st.data (st.data.length + 1) st.c st.n
      rw [heq] at hb
      have hb' : nn = st.n ∨ nn < st.data.length := hb
      have hM : MAXHEAP = 16 := rfl
      have h32 : U32MAX = 4294967295 := rfl
      have hnn : nn ≠ U32MAX := by
        rcases hb' with hb2 | hb2
        · rw [hb2]
          exact hU
        · omega
      exact np_stuck hnn hbig'

theorem npLoop_c_inv (d : List α) : ∀ (fuel : Nat) (c : List Nat) (n : Nat),
    (∀ i, c.getD i 0 ≤ i + 1) → ∀ i, ((npLoop d fuel c n).2.1).getD i 0 ≤ i + 1 := by
  intro fuel
  induction fuel with
  | zero =>
    intro c n hc i
    exact hc i
  | succ fuel ih =>
    intro c n hc i
    simp only [npLoop]
    by_cases hlt : 1 + n < d.length
    · rw [if_pos hlt]
      by_cases hg : c.getD n 0 ≤ n
      · rw [if_pos hg]
        show ((c.set n (c.getD n 0 + 1))).getD i 0 ≤ i + 1
        rw [List.getD_eq_getElem?_getD, List.getElem?_set]
        by_cases hni : n = i
        · rw [if_pos hni]
          by_cases hb : n < c.length
          · rw [if_pos hb]
            simp only [Option.getD_some]
            omega
          · rw [if_neg hb]
            simp only [Option.getD_none]
            omega
        · rw [if_neg hni, ← List.getD_eq_getElem?_getD]
          exact hc i
      · rw [if_neg hg]
        apply ih
        intro j
        rw [List.getD_eq_getElem?_getD, List.getElem?_set]
        by_cases hnj : n = j
        · rw [if_pos hnj]
          by_cases hb : n < c.length
          · rw [if_pos hb]
            simp
          · rw [if_neg hb]
            simp
        · rw [if_neg hnj, ← List.getD_eq_getElem?_getD]
          exact hc j
    · rw [if_neg hlt]
      exact hc i

theorem reach_c_bound {h : Heap α} (hr : Reach h) : ∀ i, h.c.getD i 0 ≤ i + 1 := by
  induction hr with
  | init xs =>
    intro i
    show (List.replicate (MAXHEAP - 1) 0).getD i 0 ≤ i + 1
    rw [getD_replicate_zero]
    omega
  | step hr ih =>
    rename_i g
    intro i
    simp only [Heap.next_permutation]
    by_cases hU : g.n = U32MAX
    · rw [if_pos hU]
      exact ih i
    · rw [if_neg hU]
      split
      · rename_i d2 cc nn heq
        show cc.getD i 0 ≤ i + 1
        have hinv := npLoop_c_inv g.data (g.data.length + 1) g.c g.n ih i
        rw [heq] at hinv
        exact hinv
      · rename_i cc nn heq
        show cc.getD i 0 ≤ i + 1
        have hinv := npLoop_c_inv g.data (g.data.length + 1) g.c g.n ih i
        rw [heq] at hinv
        exact hinv

/-! ### The lexical successor: order facts and the pivot search -/

theorem lt_asymm' {lt : α → α → Bool} (hirr : ∀ a, lt a a = false)
    (htr : ∀ a b c, lt a b = true → lt b c = true → lt a c = true)
    {a b : α} (h : lt a b = true) : lt b a = false := by
  by_contra hc
  have hba : lt b a = true := by
    cases hv2 : lt b a
    · exact absurd hv2 hc
    · rfl
  have := htr a b a h hba
  rw [hirr a] at this
  exact Bool.false_ne_true this

theorem lt_negtrans {lt : α → α → Bool} (hirr : ∀ a, lt a a = false)
    (htr : ∀ a b c, lt a b = true → lt b c = true → lt a c = true)
    (htot : ∀ a b, lt a b = false → lt b a = false → a = b)
    {a b c : α} (hab : lt a b = false) (hbc : lt b c = false) : lt a c = false := by
  cases hac : lt a c
  · rfl
  · exfalso
    cases hba : lt b a
    · have hEq := htot a b hab hba
      subst hEq
      rw [hbc] at hac
      exact Bool.false_ne_true hac
    · have := htr b a c hba hac
      rw [hbc] at this
      exact Bool.false_ne_true this

theorem pg_none {lt : α → α → Bool} {x : α} :
    ∀ {u : List α}, pickLastGreater lt x u = none → ∀ y ∈ u, lt x y = false := by
  intro u
  induction u with
  | nil =>
    intro _ y hy
    exact absurd hy (List.not_mem_nil y)
  | cons a t ih =>
    intro h y hy
    simp only [pickLastGreater] at h
    rcases hpg : pickLastGreater lt x t with _ | ⟨z, t'⟩
    · rw [hpg] at h
      rcases List.mem_cons.mp hy with hy | hy
      · subst hy
        cases hxa : lt x y
        · rfl
        · rw [hxa] at h
          simp at h
      · exact ih (by rw [hpg]) y hy
    · rw [hpg] at h
      simp at h

theorem pg_some {lt : α → α → Bool} {x y : α} :
    ∀ {S S' : List α}, pickLastGreater lt x S = some (y, S') →
    lt x y = true ∧ ∃ A B, S = A ++ y :: B ∧ S' = A ++ x :: B ∧
      ∀ w ∈ B, lt x w = false := by
  intro S
  induction S with
  | nil =>
    intro S' h
    simp [pickLastGreater] at h
  | cons a t ih =>
    intro S' h
    simp only [pickLastGreater] at h
    rcases hpg : pickLastGreater lt x t with _ | ⟨z, t'⟩
    · rw [hpg] at h
      cases hxa : lt x a
      · rw [hxa] at h
        simp at h
      · rw [hxa] at h
        rw [if_pos rfl] at h
        injection h with h2
        injection h2 with h3 h4
        subst h3
        subst h4
        exact ⟨hxa, [], t, rfl, rfl, pg_none hpg⟩
    · rw [hpg] at h
      simp only [Option.some.injEq, Prod.mk.injEq] at h
      obtain ⟨hzy, hS'⟩ := h
      subst hzy
      subst hS'
      obtain ⟨hxy, A, B, hSd, hS'd, hB⟩ := ih hpg
      exact ⟨hxy, a :: A, B, by rw [hSd]; rfl, by rw [hS'd]; rfl, hB⟩

theorem nonIncr_cons {lt : α → α → Bool} {a : α} {t : List α}
    (h : nonIncr lt (a :: t) = true) : nonIncr lt t = true := by
  cases t with
  | nil => rfl
  | cons b u =>
    simp only [nonIncr, Bool.and_eq_true] at h
    exact h.2

theorem nonIncr_head {lt : α → α → Bool} (hirr : ∀ a, lt a a = false)
    (htr : ∀ a b c, lt a b = true → lt b c = true → lt a c = true)
    (htot : ∀ a b, lt a b = false → lt b a = false → a = b) :
    ∀ {t : List α} {a : α}, nonIncr lt (a :: t) = true → ∀ b ∈ t, lt a b = false := by
  intro t
  induction t with
  | nil =>
    intro a _ b hb
    exact absurd hb (List.not_mem_nil b)
  | cons s t' ih =>
    intro a h b hb
    simp only [nonIncr, Bool.and_eq_true, Bool.not_eq_true', Bool.not_eq_eq_eq_not] at h
    have has : lt a s = false := by
      have := h.1
      simpa using this
    rcases List.mem_cons.mp hb with hb | hb
    · subst hb
      exact has
    · exact lt_negtrans hirr htr htot has (ih h.2 b hb)

theorem nonIncr_pairwise {lt : α → α → Bool} (hirr : ∀ a, lt a a = false)
    (htr : ∀ a b c, lt a b = true → lt b c = true → lt a c = true)
    (htot : ∀ a b, lt a b = false → lt b a = false → a = b) :
    ∀ {l : List α}, nonIncr lt l = true → l.Pairwise (fun a b => lt a b = false) := by
  intro l
  induction l with
  | nil => intro _; exact List.Pairwise.nil
  | cons a t ih =>
    intro h
    exact List.pairwise_cons.mpr
      ⟨nonIncr_head hirr htr htot h, ih (nonIncr_cons h)⟩

theorem pairwise_nonIncr {lt : α → α → Bool} :
    ∀ {l : List α}, l.Pairwise (fun a b => lt a b = false) → nonIncr lt l = true := by
  intro l
  induction l with
  | nil => intro _; rfl
  | cons a t ih =>
    intro h
    rcases List.pairwise_cons.mp h with ⟨hhead, htail⟩
    cases t with
    | nil => rfl
    | cons b u =>
      simp only [nonIncr, Bool.and_eq_true]
      refine ⟨?_, ih htail⟩
      rw [hhead b (List.mem_cons_self b u)]
      rfl

theorem pairwise_nonDecr {lt : α → α → Bool} :
    ∀ {l : List α}, l.Pairwise (fun a b => lt b a = false) → nonDecr lt l = true := by
  intro l
  induction l with
  | nil => intro _; rfl
  | cons a t ih =>
    intro h
    rcases List.pairwise_cons.mp h with ⟨hhead, htail⟩
    cases t with
    | nil => rfl
    | cons b u =>
      simp only [nonDecr, Bool.and_eq_true]
      refine ⟨?_, ih htail⟩
      rw [hhead b (List.mem_cons_self b u)]
      rfl

theorem nonDecr_head {lt : α → α → Bool} (hirr : ∀ a, lt a a = false)
    (htr : ∀ a b c, lt a b = true → lt b c = true → lt a c = true)
    (htot : ∀ a b, lt a b = false → lt b a = false → a = b) :
    ∀ {t : List α} {a : α}, nonDecr lt (a :: t) = true → ∀ b ∈ t, lt b a = false := by
  intro t
  induction t with
  | nil =>
    intro a _ b hb
    exact absurd hb (List.not_mem_nil b)
  | cons s t' ih =>
    intro a h b hb
    simp only [nonDecr, Bool.and_eq_true, Bool.not_eq_true', Bool.not_eq_eq_eq_not] at h
    have has : lt s a = false := by
      have := h.1
      simpa using this
    rcases List.mem_cons.mp hb with hb | hb
    · subst hb
      exact has
    · exact lt_negtrans hirr htr htot (ih h.2 b hb) has

theorem lexLt_max {lt : α → α → Bool} (hirr : ∀ a, lt a a = false)
    (htr : ∀ a b c, lt a b = true → lt b c = true → lt a c = true)
    (htot : ∀ a b, lt a b = false → lt b a = false → a = b) :
    ∀ {l m : List α}, nonIncr lt l = true → m ~ l → lexLt lt l m = false := by
  intro l
  induction l with
  | nil =>
    intro m _ hm
    have : m = [] := List.Perm.eq_nil hm
    subst this
    rfl
  | cons a t ih =>
    intro m hni hm
    cases m with
    | nil =>
      have := hm.length_eq
      simp at this
    | cons b u =>
      simp only [lexLt]
      have hb : b ∈ a :: t := hm.subset (List.mem_cons_self b u)
      have hab : lt a b = false := by
        rcases List.mem_cons.mp hb with hb | hb
        · subst hb
          exact hirr _
        · exact nonIncr_head hirr htr htot hni b hb
      rw [hab]
      cases hba : lt b a
      · have hEq := htot a b hab hba
        subst hEq
        have hut : u ~ t := hm.cons_inv
        rw [ih (nonIncr_cons hni) hut]
        simp
      · simp

theorem lexLt_min {lt : α → α → Bool} (hirr : ∀ a, lt a a = false)
    (htr : ∀ a b c, lt a b = true → lt b c = true → lt a c = true)
    (htot : ∀ a b, lt a b = false → lt b a = false → a = b) :
    ∀ {l m : List α}, nonDecr lt l = true → m ~ l → lexLt lt m l = false := by
  intro l
  induction l with
  | nil =>
    intro m _ hm
    have : m = [] := List.Perm.eq_nil hm
    subst this
    rfl
  | cons a t ih =>
    intro m hnd hm
    cases m with
    | nil =>
      have := hm.length_eq
      simp at this
    | cons b u =>
      simp only [lexLt]
      have hb : b ∈ a :: t := hm.subset (List.mem_cons_self b u)
      have hba : lt b a = false := by
        rcases List.mem_cons.mp hb with hb | hb
        · subst hb
          exact hirr _
        · exact nonDecr_head hirr htr htot hnd b hb
      rw [hba]
      cases hab : lt a b
      · have hEq := htot b a hba hab
        subst hEq
        have hut : u ~ t := hm.cons_inv
        have hndt : nonDecr lt t = true := by
          cases t with
          | nil => rfl
          | cons s t2 =>
            simp only [nonDecr, Bool.and_eq_true] at hnd
            exact hnd.2
        rw [ih hndt hut]
        simp
      · simp

theorem lexLt_append_left {lt : α → α → Bool} (hirr : ∀ a, lt a a = false) :
    ∀ (P u v : List α), lexLt lt (P ++ u) (P ++ v) = lexLt lt u v := by
  intro P
  induction P with
  | nil => intro u v; rfl
  | cons p P ih =>
    intro u v
    show lexLt lt (p :: (P ++ u)) (p :: (P ++ v)) = lexLt lt u v
    simp only [lexLt, hirr p]
    simp only [Bool.false_or, Bool.not_false, Bool.true_and]
    exact ih u v

theorem lex_kernel {lt : α → α → Bool} (hirr : ∀ a, lt a a = false)
    (htr : ∀ a b c, lt a b = true → lt b c = true → lt a c = true)
    (htot : ∀ a b, lt a b = false → lt b a = false → a = b)
    {x y : α} {S S' : List α} (hS : nonIncr lt S = true)
    (hpg : pickLastGreater lt x S = some (y, S')) :
    lexLt lt (x :: S) (y :: S'.reverse) = true
    ∧ ∀ m', m' ~ x :: S → lexLt lt (x :: S) m' = true →
        lexLt lt m' (y :: S'.reverse) = false := by
  obtain ⟨hxy, A, B, hSd, hS'd, hB⟩ := pg_some hpg
  have hperm : (x :: S) ~ (y :: S') := by
    rw [hSd, hS'd]
    have h1 : x :: (A ++ y :: B) ~ x :: (y :: (A ++ B)) :=
      List.Perm.cons x List.perm_middle
    have h2 : x :: y :: (A ++ B) ~ y :: x :: (A ++ B) :=
      List.Perm.swap y x (A ++ B)
    have h3 : y :: x :: (A ++ B) ~ y :: (A ++ x :: B) :=
      List.Perm.cons y List.perm_middle.symm
    exact (h1.trans h2).trans h3
  have hPW : S.Pairwise (fun a b => lt a b = false) :=
    nonIncr_pairwise hirr htr htot hS
  have hPWd : (A ++ y :: B).Pairwise (fun a b => lt a b = false) := by
    rw [← hSd]
    exact hPW
  have hPW' : S'.Pairwise (fun a b => lt a b = false) := by
    rw [hS'd]
    rw [List.pairwise_append] at hPWd ⊢
    obtain ⟨hA, hyB, hAyB⟩ := hPWd
    rw [List.pairwise_cons] at hyB ⊢
    refine ⟨hA, ⟨hB, hyB.2⟩, ?_⟩
    intro a ha b hb
    rcases List.mem_cons.mp hb with hb | hb
    · subst hb
      cases hax : lt a b
      · rfl
      · have hay : lt a y = true := htr a b y hax hxy
        rw [hAyB a ha y (List.mem_cons_self y B)] at hay
        exact absurd hay (by simp)
    · exact hAyB a ha b (List.mem_cons_of_mem y hb)
  have hrevND : nonDecr lt S'.reverse = true := by
    apply pairwise_nonDecr
    rw [List.pairwise_reverse]
    exact hPW'
  constructor
  · simp only [lexLt, hxy]
    rfl
  · intro m' hm' hlex
    cases m' with
    | nil =>
      have := hm'.length_eq
      simp at this
    | cons c u =>
      simp only [lexLt] at hlex ⊢
      cases hxc : lt x c
      · rw [hxc] at hlex
        simp only [Bool.false_or, Bool.not_false, Bool.true_and,
          Bool.and_eq_true] at hlex
        obtain ⟨hcx, hSu⟩ := hlex
        have hcx' : lt c x = false := by simpa using hcx
        have hEq := htot x c hxc hcx'
        have h1 : (c :: u) ~ (x :: S) := hm'
        rw [← hEq] at h1
        have hu : u ~ S := h1.cons_inv
        have hmax := lexLt_max hirr htr htot hS hu
        rw [hmax] at hSu
        exact absurd hSu (by simp)
      · have hcS : c ∈ S := by
          have hcm : c ∈ x :: S := hm'.subset (List.mem_cons_self c u)
          rcases List.mem_cons.mp hcm with hcx2 | hcS
          · subst hcx2
            rw [hirr] at hxc
            exact absurd hxc (by simp)
          · exact hcS
        have hcy : lt c y = false := by
          rw [hSd] at hcS
          rcases List.mem_append.mp hcS with hcA | hcyB
          · rw [List.pairwise_append] at hPWd
            exact hPWd.2.2 c hcA y (List.mem_cons_self y B)
          · rcases List.mem_cons.mp hcyB with hcy2 | hcB
            · subst hcy2
              exact hirr _
            · rw [hB c hcB] at hxc
              exact absurd hxc (by simp)
        rw [hcy]
        cases hyc : lt y c
        · have hEq := htot c y hcy hyc
          have h1 : (c :: u) ~ (y :: S') := hm'.trans hperm
          rw [hEq] at h1
          have hu : u ~ S' := h1.cons_inv
          have hmin : lexLt lt u (S'.reverse) = false :=
            lexLt_min hirr htr htot hrevND (hu.trans (List.reverse_perm S').symm)
          rw [hmin]
          simp
        · simp

theorem lex_prefix_lift {lt : α → α → Bool} (hirr : ∀ a, lt a a = false)
    (htr : ∀ a b c, lt a b = true → lt b c = true → lt a c = true)
    (htot : ∀ a b, lt a b = false → lt b a = false → a = b) :
    ∀ (A u v : List α),
      (∀ m', m' ~ u → lexLt lt u m' = true → lexLt lt m' v = false) →
      ∀ m, m ~ A ++ u → lexLt lt (A ++ u) m = true → lexLt lt m (A ++ v) = false := by
  intro A
  induction A with
  | nil =>
    intro u v hker m hm hlex
    exact hker m hm hlex
  | cons a A ih =>
    intro u v hker m hm hlex
    cases m with
    | nil =>
      have := hm.length_eq
      simp at this
    | cons b m2 =>
      simp only [List.cons_append] at hm hlex ⊢
      simp only [lexLt] at hlex ⊢
      cases hab : lt a b
      · rw [hab] at hlex
        simp only [Bool.false_or, Bool.not_false, Bool.true_and,
          Bool.and_eq_true] at hlex
        obtain ⟨hba, hrest⟩ := hlex
        have hba' : lt b a = false := by simpa using hba
        have hEq := htot a b hab hba'
        subst hEq
        have hm2 : m2 ~ A ++ u := hm.cons_inv
        have := ih u v hker m2 hm2 hrest
        rw [this, hirr]
        simp
      · have hba : lt b a = false := lt_asymm' hirr htr hab
        rw [hba]
        simp

theorem pg_perm {lt : α → α → Bool} {x y : α} {S S' : List α}
    (hpg : pickLastGreater lt x S = some (y, S')) : (x :: S) ~ (y :: S') := by
  obtain ⟨_, A, B, hSd, hS'd, _⟩ := pg_some hpg
  rw [hSd, hS'd]
  have h1 : x :: (A ++ y :: B) ~ x :: (y :: (A ++ B)) :=
    List.Perm.cons x List.perm_middle
  have h2 : x :: y :: (A ++ B) ~ y :: x :: (A ++ B) :=
    List.Perm.swap y x (A ++ B)
  have h3 : y :: x :: (A ++ B) ~ y :: (A ++ x :: B) :=
    List.Perm.cons y List.perm_middle.symm
  exact (h1.trans h2).trans h3

theorem lexGo_perm {lt : α → α → Bool} :
    ∀ (rev suffix : List α), (lexGo lt rev suffix).2 ~ rev.reverse ++ suffix := by
  intro rev
  induction rev with
  | nil =>
    intro suffix
    simp [lexGo]
  | cons x rest ih =>
    intro suffix
    cases suffix with
    | nil =>
      have hstep : lexGo lt (x :: rest) ([] : List α) = lexGo lt rest [x] := rfl
      rw [hstep, List.reverse_cons, List.append_nil]
      exact ih [x]
    | cons s st =>
      by_cases hxs : lt x s = true
      · rcases hpg : pickLastGreater lt x (s :: st) with _ | ⟨y, S'⟩
        · have hstep : lexGo lt (x :: rest) (s :: st)
              = (false, rest.reverse ++ x :: s :: st) := by
            simp only [lexGo]
            rw [if_pos hxs, hpg]
          rw [hstep, List.reverse_cons, List.append_assoc, List.singleton_append]
        · have hstep : lexGo lt (x :: rest) (s :: st)
              = (true, rest.reverse ++ y :: S'.reverse) := by
            simp only [lexGo]
            rw [if_pos hxs, hpg]
          rw [hstep, List.reverse_cons, List.append_assoc, List.singleton_append]
          apply List.Perm.append_left
          have h1 : (y :: S'.reverse) ~ (y :: S') :=
            List.Perm.cons y (List.reverse_perm S')
          exact h1.trans (pg_perm hpg).symm
      · have hstep : lexGo lt (x :: rest) (s :: st)
            = lexGo lt rest (x :: s :: st) := by
          simp only [lexGo]
          rw [if_neg hxs]
        rw [hstep, List.reverse_cons, List.append_assoc, List.singleton_append]
        exact ih (x :: s :: st)

theorem lexGo_false_spec {lt : α → α → Bool} :
    ∀ (rev suffix : List α), nonIncr lt suffix = true →
      (lexGo lt rev suffix).1 = false →
      (lexGo lt rev suffix).2 = rev.reverse ++ suffix
      ∧ nonIncr lt (rev.reverse ++ suffix) = true := by
  intro rev
  induction rev with
  | nil =>
    intro suffix hsuf _
    exact ⟨rfl, hsuf⟩
  | cons x rest ih =>
    intro suffix hsuf hfalse
    cases suffix with
    | nil =>
      have hstep : lexGo lt (x :: rest) ([] : List α) = lexGo lt rest [x] := rfl
      rw [hstep] at hfalse ⊢
      rw [List.reverse_cons, List.append_nil]
      exact ih [x] rfl hfalse
    | cons s st =>
      by_cases hxs : lt x s = true
      · rcases hpg : pickLastGreater lt x (s :: st) with _ | ⟨y, S'⟩
        · rw [pg_none hpg s (List.mem_cons_self s st)] at hxs
          exact absurd hxs (by simp)
        · have hstep : lexGo lt (x :: rest) (s :: st)
              = (true, rest.reverse ++ y :: S'.reverse) := by
            simp only [lexGo]
            rw [if_pos hxs, hpg]
          rw [hstep] at hfalse
          exact absurd hfalse (by simp)
      · have hstep : lexGo lt (x :: rest) (s :: st)
            = lexGo lt rest (x :: s :: st) := by
          simp only [lexGo]
          rw [if_neg hxs]
        have hxs' : lt x s = false := by
          cases hv2 : lt x s
          · rfl
          · exact absurd hv2 hxs
        have hsuf' : nonIncr lt (x :: s :: st) = true := by
          simp only [nonIncr, Bool.and_eq_true]
          exact ⟨by rw [hxs']; rfl, hsuf⟩
        rw [hstep] at hfalse ⊢
        rw [List.reverse_cons, List.append_assoc, List.singleton_append]
        exact ih (x :: s :: st) hsuf' hfalse

theorem lexGo_true_spec {lt : α → α → Bool} (hirr : ∀ a, lt a a = false)
    (htr : ∀ a b c, lt a b = true → lt b c = true → lt a c = true)
    (htot : ∀ a b, lt a b = false → lt b a = false → a = b) :
    ∀ (rev suffix : List α), nonIncr lt suffix = true →
      (lexGo lt rev suffix).1 = true →
      lexLt lt (rev.reverse ++ suffix) (lexGo lt rev suffix).2 = true
      ∧ ∀ m, m ~ rev.reverse ++ suffix →
          lexLt lt (rev.reverse ++ suffix) m = true →
          lexLt lt m (lexGo lt rev suffix).2 = false := by
  intro rev
  induction rev with
  | nil =>
    intro suffix _ htrue
    exact absurd htrue (by simp [lexGo])
  | cons x rest ih =>
    intro suffix hsuf htrue
    cases suffix with
    | nil =>
      have hstep : lexGo lt (x :: rest) ([] : List α) = lexGo lt rest [x] := rfl
      rw [hstep] at htrue ⊢
      rw [List.reverse_cons, List.append_nil]
      exact ih [x] rfl htrue
    | cons s st =>
      by_cases hxs : lt x s = true
      · rcases hpg : pickLastGreater lt x (s :: st) with _ | ⟨y, S'⟩
        · rw [pg_none hpg s (List.mem_cons_self s st)] at hxs
          exact absurd hxs (by simp)
        · have hstep : lexGo lt (x :: rest) (s :: st)
              = (true, rest.reverse ++ y :: S'.reverse) := by
            simp only [lexGo]
            rw [if_pos hxs, hpg]
          rw [hstep, List.reverse_cons, List.append_assoc, List.singleton_append]
          have hker := lex_kernel hirr htr htot hsuf hpg
          constructor
          · show lexLt lt (rest.reverse ++ (x :: s :: st))
              (rest.reverse ++ (y :: S'.reverse)) = true
            rw [lexLt_append_left hirr]
            exact hker.1
          · intro m hm hlex
            show lexLt lt m (rest.reverse ++ (y :: S'.reverse)) = false
            exact lex_prefix_lift hirr htr htot rest.reverse (x :: s :: st)
              (y :: S'.reverse) hker.2 m hm hlex
      · have hstep : lexGo lt (x :: rest) (s :: st)
            = lexGo lt rest (x :: s :: st) := by
          simp only [lexGo]
          rw [if_neg hxs]
        have hxs' : lt x s = false := by
          cases hv2 : lt x s
          · rfl
          · exact absurd hv2 hxs
        have hsuf' : nonIncr lt (x :: s :: st) = true := by
          simp only [nonIncr, Bool.and_eq_true]
          exact ⟨by rw [hxs']; rfl, hsuf⟩
        rw [hstep] at htrue ⊢
        rw [List.reverse_cons, List.append_assoc, List.singleton_append]
        exact ih (x :: s :: st) hsuf' htrue

theorem next_lex_spec {lt : α → α → Bool} (hirr : ∀ a, lt a a = false)
    (htr : ∀ a b c, lt a b = true → lt b c = true → lt a c = true)
    (htot : ∀ a b, lt a b = false → lt b a = false → a = b) (l : List α) :
    (next_in_lexical_order lt l).2 ~ l
    ∧ ((next_in_lexical_order lt l).1 = false →
        (next_in_lexical_order lt l).2 = l
        ∧ ∀ m, m ~ l → lexLt lt l m = false)
    ∧ ((next_in_lexical_order lt l).1 = true →
        lexLt lt l (next_in_lexical_order lt l).2 = true
        ∧ ∀ m, m ~ l → lexLt lt l m = true →
            lexLt lt m (next_in_lexical_order lt l).2 = false) := by
  have hrr : l.reverse.reverse ++ ([] : List α) = l := by
    rw [List.reverse_reverse, List.append_nil]
  refine ⟨?_, ?_, ?_⟩
  · have hp : (lexGo lt l.reverse []).2 ~ l.reverse.reverse ++ [] :=
      lexGo_perm l.reverse []
    rw [hrr] at hp
    exact hp
  · intro hfalse
    obtain ⟨h1, h2⟩ := lexGo_false_spec l.reverse [] rfl hfalse
    rw [hrr] at h1 h2
    refine ⟨h1, ?_⟩
    intro m hm
    exact lexLt_max hirr htr htot h2 hm
  · intro htrue
    obtain ⟨h1, h2⟩ := lexGo_true_spec hirr htr htot l.reverse [] rfl htrue
    rw [hrr] at h1 h2
    exact ⟨h1, h2⟩

/-! ### The claims -/

/-- C1: with pairwise-distinct elements and length at most 8, repeated
`next_permutation` yields exactly `n!` results, pairwise distinct, each a
rearrangement of the input (amended from the original claim: with repeated
elements the arrangements are not pairwise distinct, see the
counterexample). -/
theorem C1_iter_distinct (xs : List α) (h8 : xs.length ≤ 8) (hnd : xs.Nodup) :
    (iterRun xs).length = Nat.factorial xs.length
    ∧ (iterRun xs).Nodup
    ∧ ∀ p ∈ iterRun xs, p ~ xs := by
  have h16 : xs.length ≤ MAXHEAP := le_trans h8 (by decide)
  rw [iterRun_eq_hv xs h16]
  exact ⟨hv_length xs.length xs,
    hv_nodup xs.length h8 xs (Nat.le_refl _) hnd,
    fun p hp => (hv_perm xs.length xs).2 p hp⟩

/-- C1 counterexample: on the input `[1,1]` the engine yields `2! = 2`
arrangements which are equal, not pairwise distinct, refuting the distinctness
part of the claim for inputs with repeated elements. -/
theorem C1_duplicates_counterexample :
    iterRun ([1,1] : List Nat) = [[1,1],[1,1]]
    ∧ ¬ (iterRun ([1,1] : List Nat)).Nodup := by decide

/-- C1 witness at the concrete distinct input `[0,1,2]`. -/
theorem C1_iter_distinct_witness :
    (iterRun ([0,1,2] : List Nat)).length = Nat.factorial ([0,1,2] : List Nat).length
    ∧ (iterRun ([0,1,2] : List Nat)).Nodup
    ∧ ∀ p ∈ iterRun ([0,1,2] : List Nat), p ~ [0,1,2] :=
  C1_iter_distinct [0,1,2] (by decide) (by decide)

/-- C2: `heap_recursive` invokes its callback exactly `n!` times, and for
every input the iterative engine accepts the visited sequence is identical,
element for element and in order, to the iterative enumeration. -/
theorem C2_recursive_matches_iterative (xs : List α) :
    (heap_recursive xs).2.length = Nat.factorial xs.length
    ∧ (xs.length ≤ MAXHEAP → (heap_recursive xs).2 = iterRun xs) := by
  rw [heap_recursive_eq_hv]
  exact ⟨hv_length _ _, fun h => (iterRun_eq_hv xs h).symm⟩

/-- C2 witness at the concrete input `[0,1]`. -/
theorem C2_recursive_matches_iterative_witness :
    (heap_recursive ([0,1] : List Nat)).2.length
        = Nat.factorial ([0,1] : List Nat).length
    ∧ (heap_recursive ([0,1] : List Nat)).2 = iterRun [0,1] :=
  ⟨(C2_recursive_matches_iterative [0,1]).1,
    (C2_recursive_matches_iterative [0,1]).2 (by decide)⟩

/-- C3: on `[1,2,3]` the iterative engine yields exactly the six
arrangements `[1,2,3], [2,1,3], [3,1,2], [1,3,2], [2,3,1], [3,2,1]` in this
order, and the call after the sixth returns `None`. -/
theorem C3_enumeration_123 :
    iterRun ([1,2,3] : List Nat)
      = [[1,2,3],[2,1,3],[3,1,2],[1,3,2],[2,3,1],[3,2,1]]
    ∧ (stepN (mkHeap ([1,2,3] : List Nat)) 6).next_permutation.1 = none := by decide

/-- C4: the first permutation returned is the input arrangement unchanged
(amended from the original claim: the last permutation is the full reversal
only for lengths up to 3 — for `[1,2,3,4]` the last permutation is
`[2,3,4,1]`, not the reversal, see the counterexample). -/
theorem C4_first_input_last_reverse (xs : List α) :
    (iterRun xs).head? = some xs
    ∧ (xs.length ≤ 3 → (iterRun xs).getLast? = some xs.reverse) := by
  constructor
  · show (runHeapF (factorial xs.length + 1) (mkHeap xs)).head? = some xs
    rw [show (mkHeap xs)
        = (⟨xs, U32MAX, List.replicate (MAXHEAP - 1) 0⟩ : Heap α) from rfl]
    rw [runHeapF_some (np_first xs (List.replicate (MAXHEAP - 1) 0))]
    rfl
  · intro h3
    have h16 : xs.length ≤ MAXHEAP := le_trans h3 (by decide)
    rw [iterRun_eq_hv xs h16]
    rcases xs with _ | ⟨a, _ | ⟨b, _ | ⟨c, _ | ⟨d, t⟩⟩⟩⟩
    · show (hv 0 ([] : List α)).2.getLast? = some ([] : List α).reverse
      rw [hv.eq_1]
      rfl
    · show (hv 1 [a]).2.getLast? = some [a].reverse
      rw [hv.eq_2]
      rfl
    · show (hv 2 [a, b]).2.getLast? = some [a, b].reverse
      rw [hv_two]
      rfl
    · show (hv 3 [a, b, c]).2.getLast? = some [a, b, c].reverse
      rw [hv_three]
      rfl
    · simp at h3

/-- C4 counterexample: the last of the `4! = 24` arrangements for
`[1,2,3,4]` is `[2,3,4,1]`, which is not the full reversal `[4,3,2,1]`. -/
theorem C4_last_not_reverse_counterexample :
    (iterRun ([1,2,3,4] : List Nat)).getLast? = some [2,3,4,1]
    ∧ [2,3,4,1] ≠ (([1,2,3,4] : List Nat)).reverse := by decide

/-- C4 witness at the concrete input `[0,1,2]`. -/
theorem C4_first_input_last_reverse_witness :
    (iterRun ([0,1,2] : List Nat)).head? = some [0,1,2]
    ∧ (iterRun ([0,1,2] : List Nat)).getLast? = some ([0,1,2] : List Nat).reverse :=
  ⟨(C4_first_input_last_reverse [0,1,2]).1,
    (C4_first_input_last_reverse [0,1,2]).2 (by decide)⟩

/-- C5: in every state reachable by calls to `next_permutation` the counter
at index `i` is at most `i + 1` (amended from the original claim
`counters[i] <= i`, which fails immediately after an emission at level `i`,
see the counterexample). -/
theorem C5_counter_bound {h : Heap α} (hr : Reach h) (i : Nat) :
    h.c.getD i 0 ≤ i + 1 :=
  reach_c_bound hr i

/-- C5 counterexample: two steps into the enumeration of `[1,2]` the counter
at index 0 is 1, violating `counters[i] <= i` at `i = 0`. -/
theorem C5_counter_exceeds_index_counterexample :
    (stepN (mkHeap ([1,2] : List Nat)) 2).c.getD 0 0 = 1
    ∧ ¬ ((stepN (mkHeap ([1,2] : List Nat)) 2).c.getD 0 0 ≤ 0) := by decide

/-- C5 witness: the bound at index 0 in the concrete reachable state two
steps into the enumeration of `[1,2]`. -/
theorem C5_counter_bound_witness :
    (stepN (mkHeap ([1,2] : List Nat)) 2).c.getD 0 0 ≤ 0 + 1 :=
  C5_counter_bound (Reach.step (Reach.step (Reach.init [1,2]))) 0

/-- C6: construction succeeds exactly for sequences of length at most 16,
fails (returns no engine) for longer ones, and an accepted sequence is
stored whole, never truncated. -/
theorem C6_new_length_guard (xs : List α) :
    (xs.length ≤ MAXHEAP → Heap.new xs = some (mkHeap xs))
    ∧ (MAXHEAP < xs.length → Heap.new xs = none)
    ∧ ∀ h', Heap.new xs = some h' → h'.data = xs := by
  refine ⟨?_, ?_, ?_⟩
  · intro h
    simp only [Heap.new]
    rw [if_pos h]
  · intro h
    simp only [Heap.new]
    rw [if_neg (by omega)]
  · intro h' hh
    simp only [Heap.new] at hh
    by_cases hlen : xs.length ≤ MAXHEAP
    · rw [if_pos hlen] at hh
      injection hh with hh
      rw [← hh]
      rfl
    · rw [if_neg hlen] at hh
      exact absurd hh (by simp)

/-- C6 witness: a length-1 sequence is accepted and stored whole; a
length-17 sequence is rejected. -/
theorem C6_new_length_guard_witness :
    Heap.new ([0] : List Nat) = some (mkHeap [0])
    ∧ Heap.new (List.replicate 17 (0 : Nat)) = none
    ∧ (mkHeap ([0] : List Nat)).data = [0] :=
  ⟨(C6_new_length_guard [0]).1 (by decide),
    (C6_new_length_guard (List.replicate 17 0)).2.1 (by decide),
    (C6_new_length_guard [0]).2.2 (mkHeap [0])
      ((C6_new_length_guard [0]).1 (by decide))⟩

/-- C7: `reset` returns the position marker to the not-started sentinel and
zeroes every counter while leaving the wrapped arrangement untouched, so the
next call restarts the enumeration from the current arrangement. -/
theorem C7_reset_state (h : Heap α) :
    (h.reset).data = h.data
    ∧ (h.reset).n = U32MAX
    ∧ (h.reset).c = List.replicate (MAXHEAP - 1) 0
    ∧ (h.reset).next_permutation = (some h.data, { h.reset with n := 0 }) := by
  refine ⟨rfl, rfl, rfl, ?_⟩
  show Heap.next_permutation
      (⟨h.data, U32MAX, List.replicate (MAXHEAP - 1) 0⟩ : Heap α) = _
  rw [np_first]
  rfl

/-- C8: the source's recursive engine takes a callback returning unit, not a
continue/break control value, so a run cannot be stopped early: on `[1,2,3]`
all 6 permutations are visited, never only 3.  (The `Control`/`ControlFlow`
machinery of `src/control.rs` is not wired into `heap_recursive`.) -/
theorem C8_no_early_termination :
    (heap_recursive ([1,2,3] : List Nat)).2.length = 6
    ∧ (heap_recursive ([1,2,3] : List Nat)).2.length ≠ 3 := by decide

/-- C9 (the implementation is modelled from the spec, `src/lexical.rs` being
absent): under a strict linear order, `next_in_lexical_order` permutes the
sequence; on `false` it leaves it unchanged and the sequence is
lexicographically maximal among its rearrangements; on `true` the result is
lexicographically larger and no rearrangement lies strictly between; and
from `[1,2,3]` repeated application yields `[1,3,2], [2,1,3], [2,3,1],
[3,1,2], [3,2,1]` and then reports no further permutation. -/
theorem C9_lexical_successor {lt : α → α → Bool}
    (hirr : ∀ a, lt a a = false)
    (htr : ∀ a b c, lt a b = true → lt b c = true → lt a c = true)
    (htot : ∀ a b, lt a b = false → lt b a = false → a = b) (l : List α) :
    ((next_in_lexical_order lt l).2 ~ l
      ∧ ((next_in_lexical_order lt l).1 = false →
          (next_in_lexical_order lt l).2 = l
          ∧ ∀ m, m ~ l → lexLt lt l m = false)
      ∧ ((next_in_lexical_order lt l).1 = true →
          lexLt lt l (next_in_lexical_order lt l).2 = true
          ∧ ∀ m, m ~ l → lexLt lt l m = true →
              lexLt lt m (next_in_lexical_order lt l).2 = false))
    ∧ (next_in_lexical_order (fun a b : Nat => decide (a < b)) [1,2,3]
          = (true, [1,3,2])
      ∧ next_in_lexical_order (fun a b : Nat => decide (a < b)) [1,3,2]
          = (true, [2,1,3])
      ∧ next_in_lexical_order (fun a b : Nat => decide (a < b)) [2,1,3]
          = (true, [2,3,1])
      ∧ next_in_lexical_order (fun a b : Nat => decide (a < b)) [2,3,1]
          = (true, [3,1,2])
      ∧ next_in_lexical_order (fun a b : Nat => decide (a < b)) [3,1,2]
          = (true, [3,2,1])
      ∧ next_in_lexical_order (fun a b : Nat => decide (a < b)) [3,2,1]
          = (false, [3,2,1])) :=
  ⟨next_lex_spec hirr htr htot l, by decide⟩

/-- C9 witness: the contract instantiated at the strict order on `Fin 3`
and the concrete sequence `[0,1,2]`. -/
theorem C9_lexical_successor_witness :
    ((next_in_lexical_order (fun a b : Fin 3 => decide (a < b)) [0,1,2]).2 ~ [0,1,2]
      ∧ ((next_in_lexical_order (fun a b : Fin 3 => decide (a < b)) [0,1,2]).1 = false →
          (next_in_lexical_order (fun a b : Fin 3 => decide (a < b)) [0,1,2]).2 = [0,1,2]
          ∧ ∀ m, m ~ [0,1,2] →
              lexLt (fun a b : Fin 3 => decide (a < b)) [0,1,2] m = false)
      ∧ ((next_in_lexical_order (fun a b : Fin 3 => decide (a < b)) [0,1,2]).1 = true →
          lexLt (fun a b : Fin 3 => decide (a < b)) [0,1,2]
              (next_in_lexical_order (fun a b : Fin 3 => decide (a < b)) [0,1,2]).2 = true
          ∧ ∀ m, m ~ [0,1,2] →
              lexLt (fun a b : Fin 3 => decide (a < b)) [0,1,2] m = true →
              lexLt (fun a b : Fin 3 => decide (a < b)) m
                (next_in_lexical_order (fun a b : Fin 3 => decide (a < b)) [0,1,2]).2
                  = false))
    ∧ (next_in_lexical_order (fun a b : Nat => decide (a < b)) [1,2,3]
          = (true, [1,3,2])
      ∧ next_in_lexical_order (fun a b : Nat => decide (a < b)) [1,3,2]
          = (true, [2,1,3])
      ∧ next_in_lexical_order (fun a b : Nat => decide (a < b)) [2,1,3]
          = (true, [2,3,1])
      ∧ next_in_lexical_order (fun a b : Nat => decide (a < b)) [2,3,1]
          = (true, [3,1,2])
      ∧ next_in_lexical_order (fun a b : Nat => decide (a < b)) [3,1,2]
          = (true, [3,2,1])
      ∧ next_in_lexical_order (fun a b : Nat => decide (a < b)) [3,2,1]
          = (false, [3,2,1])) :=
  C9_lexical_successor (by decide) (by decide) (by decide) [0,1,2]

/-- C10: once `next_permutation` has returned `None`, the wrapped
arrangement is unchanged and every further call also returns `None` with the
state unchanged — the enumeration never restarts on its own. -/
theorem C10_exhaustion_stable {st st' : Heap α}
    (hmax : st.data.length ≤ MAXHEAP)
    (h : st.next_permutation = (none, st')) :
    st'.data = st.data ∧ st'.next_permutation = (none, st') :=
  np_none_stable hmax h

/-- C10 witness at the concrete exhausted state for the singleton input. -/
theorem C10_exhaustion_stable_witness :
    (⟨[1], 0, List.replicate (MAXHEAP - 1) 0⟩ : Heap Nat).data
        = (⟨[1], 0, List.replicate (MAXHEAP - 1) 0⟩ : Heap Nat).data
    ∧ (⟨[1], 0, List.replicate (MAXHEAP - 1) 0⟩ : Heap Nat).next_permutation
        = (none, ⟨[1], 0, List.replicate (MAXHEAP - 1) 0⟩) :=
  C10_exhaustion_stable (by decide) (by decide)

end Permutohedron
